import Mathlib

/-!
Verification development for the collaborative coding room engine
(server in Backend/models/authModel.js, the per-user TerminalManager
variant wired to the socket gateway).

The in-memory file tree of a room is the flat JS object
`roomFiles[roomCode]` mapping path strings to nodes; we embed it as an
ordered association list (JS objects preserve insertion order and have
unique keys).  The on-disk working directory is embedded as an
association list of file paths to contents plus a list of directory
paths.  The sync arbiter token set `fileSyncInProgress` is a list of
token strings.  Socket emissions are recorded as explicit events.

String helpers mirror the JS/Node operations used by the source
(`split`, `startsWith`, `substring`, `path.extname`, `path.dirname`,
`path.basename`) for ASCII path strings, implemented structurally on
the character list of the string so that all definitions evaluate.
-/

/-- Boolean list-prefix test, structural (mirrors JS `startsWith` on code units). -/
def listIsPre {α : Type} [BEq α] : List α → List α → Bool
  | [], _ => true
  | _ :: _, [] => false
  | a :: as, b :: bs => a == b && listIsPre as bs

/-- JS `s.startsWith(pre)`. -/
def jsStartsWith (s pre : String) : Bool := listIsPre pre.data s.data

/-- JS `s.substring(n)` (drop the first `n` code units). -/
def jsSubstringFrom (s : String) (n : Nat) : String := String.mk (s.data.drop n)

/-- Splits a character list at every occurrence of `c`; mirrors JS
`String.prototype.split` with a one-character separator (so that the
empty string splits to `[""]`). -/
def splitOnChar (c : Char) : List Char → List (List Char)
  | [] => [[]]
  | x :: xs =>
    let r := splitOnChar c xs
    if x == c then [] :: r
    else
      match r with
      | [] => [[x]]
      | h :: t => (x :: h) :: t

/-- JS `s.split(c)` for a one-character separator. -/
def jsSplit (s : String) (c : Char) : List String :=
  (splitOnChar c s.data).map String.mk

/-- JS `path.split('.').pop() || 'txt'`: the segment after the final dot of
the whole string (the whole string when it has no dot), defaulting to
`"txt"` when that segment is empty.  This is how the rename handler
derives the stored extension from `newPath`. -/
def jsSplitPopExt (p : String) : String :=
  let parts := jsSplit p '.'
  let last := parts.getLastD ""
  if last = "" then "txt" else last

/-- Node `path.basename(p)`: the part after the final slash. -/
def basenameOf (p : String) : String := (jsSplit p '/').getLastD ""

/-- Node `path.dirname(p)`: everything before the final slash, `"."` when
there is no slash. -/
def joinWith (sep : String) : List String → String
  | [] => ""
  | [x] => x
  | x :: y :: xs => x ++ sep ++ joinWith sep (y :: xs)

def dirnameOf (p : String) : String :=
  let parts := jsSplit p '/'
  if parts.length ≤ 1 then "." else joinWith "/" parts.dropLast

/-- Node `path.extname(p).slice(1)`: the suffix after the final dot of the
basename, empty for a dotless basename and for a basename whose only dot
is the leading one (hidden files). -/
def extnamePart (b : String) : String :=
  let parts := jsSplit b '.'
  match parts with
  | [] => ""
  | [_] => ""
  | first :: rest => if first = "" && rest.length == 1 then "" else (first :: rest).getLastD ""

/-- Extension computed by the watcher sync:
`path.extname(fileName).slice(1) || 'txt'`. -/
def watcherExt (p : String) : String :=
  let e := extnamePart (basenameOf p)
  if e = "" then "txt" else e

/-- Nodes of the in-memory file tree: `{content, type:'file', extension,
isExpanded}` or `{type:'folder', isExpanded}`. -/
inductive FileNode where
  | file (content : String) (extension : String) (isExpanded : Bool)
  | folder (isExpanded : Bool)
deriving DecidableEq, Repr

def isFile : FileNode → Bool
  | FileNode.file _ _ _ => true
  | FileNode.folder _ => false

def nodeTypeStr : FileNode → String
  | FileNode.file _ _ _ => "file"
  | FileNode.folder _ => "folder"

/-- The flat path-keyed tree of one room (`roomFiles[roomCode]`), as an
insertion-ordered association list with unique keys. -/
abbrev RoomTree := List (String × FileNode)

/-- Lookup of a key in an association list (JS property read). -/
def lookupA {α : Type} : List (String × α) → String → Option α
  | [], _ => none
  | (k, v) :: rest, key => if k = key then some v else lookupA rest key

/-- JS property write: updates the entry in place when present, otherwise
appends (JS objects add new keys at the end of insertion order). -/
def setA {α : Type} : List (String × α) → String → α → List (String × α)
  | [], key, v => [(key, v)]
  | (k, w) :: rest, key, v =>
    if k = key then (key, v) :: rest else (k, w) :: setA rest key v

/-- JS `delete obj[key]` (keys are unique, so removing every entry with
the key equals removing the one entry). -/
def delA {α : Type} : List (String × α) → String → List (String × α)
  | [], _ => []
  | (k, v) :: rest, key =>
    if k = key then delA rest key else (k, v) :: delA rest key

/-- Keys in insertion order (JS `Object.keys`). -/
def keysOf {α : Type} (l : List (String × α)) : List String := l.map (fun p => p.1)

/-- File paths of a tree in insertion order, mirroring
`Object.keys(roomFiles[roomCode]).filter(key => ....type === 'file')`. -/
def fileKeys (t : RoomTree) : List String :=
  (t.filter (fun p => isFile p.2)).map (fun p => p.1)

def countFiles (t : RoomTree) : Nat := (fileKeys t).length

/-- Socket.io delivery targets as the source writes them: a private
channel named by a socket id (`io.to(userId)` / `socket.emit`), a room
broadcast (`io.to(roomCode)`), or a room broadcast that skips the sender
(`socket.to(roomCode)`). -/
inductive Target where
  | user (id : String)
  | room (code : String)
  | roomExcept (code sender : String)
deriving DecidableEq, Repr

/-- One emitted socket event: target, event name, payload fields. -/
structure Emit where
  target : Target
  name : String
  payload : List String
deriving DecidableEq, Repr

/-- Delivery semantics given per-room membership: a private channel named
by a socket id contains exactly that socket. -/
def deliveredTo (membership : String → List String) (e : Emit) (u : String) : Prop :=
  match e.target with
  | Target.user v => u = v
  | Target.room r => u ∈ membership r
  | Target.roomExcept r sender => u ∈ membership r ∧ u ≠ sender

/-- In-memory and on-disk state of one materialized room: its tree, the
working directory contents (files and directories), the arbiter tokens of
this room held in `fileSyncInProgress`, the membership list
`rooms[roomCode]`, and the `userActiveFiles` entries of its members.
`workDir` is `some dir` once `sharedWorkingDirectories` has the room. -/
structure RoomState where
  workDir : Option String
  tree : RoomTree
  diskFiles : List (String × String)
  diskDirs : List String
  tokens : List String
  members : List String
  activeFiles : List (String × String)
deriving DecidableEq, Repr

/-- Recursive `fs.mkdirSync(d, {recursive:true})` on the directory set:
adds every slash-separated prefix of `d` that is absent (`"."` makes
none). -/
def dirPrefixes (d : String) : List String :=
  if d = "." then []
  else
    let parts := jsSplit d '/'
    (List.range parts.length).map (fun i => joinWith "/" (parts.take (i + 1)))

def addAll (dd : List String) (xs : List String) : List String :=
  xs.foldl (fun acc x => if acc.contains x then acc else acc ++ [x]) dd

def mkdirRec (dd : List String) (d : String) : List String := addAll dd (dirPrefixes d)

/-- TerminalManager.writeFileToWorkingDir (editor side of the sync
arbiter).  The own-origin token `editor-<room>-<file>` is checked; when
present the call returns `true` without writing.  Otherwise the token is
inserted (its removal is the separate 300 ms timeout), the parent
directory is created, and the file is written only when the on-disk
content differs byte-for-byte. -/
def writeFileToWorkingDir (s : RoomState) (roomCode fileName content : String) :
    RoomState × Bool :=
  let syncKey := "editor-" ++ roomCode ++ "-" ++ fileName
  if s.tokens.contains syncKey then (s, true)
  else
    match s.workDir with
    | none => (s, false)
    | some _ =>
      let tokens := syncKey :: s.tokens
      let diskDirs := mkdirRec s.diskDirs (dirnameOf fileName)
      let shouldWrite :=
        match lookupA s.diskFiles fileName with
        | some current => current != content
        | none => true
      let diskFiles :=
        if shouldWrite then setA s.diskFiles fileName content else s.diskFiles
      ({ s with tokens := tokens, diskDirs := diskDirs, diskFiles := diskFiles }, true)

/-- Content of a file node, as the JS `....content || ''` read used by the
watcher sync and the active-file switch. -/
def contentOrEmpty (t : RoomTree) (k : String) : String :=
  match lookupA t k with
  | some (FileNode.file c _ _) => c
  | some (FileNode.folder _) => ""
  | none => ""

/-- TerminalManager.syncFileFromTerminalToRoom (watcher add/change →
tree).  Checks the own-origin token `terminal-<room>-<file>`; when
present, returns silently.  Otherwise inserts the token, reads the
on-disk content (a read failure is caught and logged), and updates the
tree node and broadcasts only when the content actually changed. -/
def syncFileFromTerminalToRoom (s : RoomState) (roomCode fileName : String) :
    RoomState × List Emit :=
  let syncKey := "terminal-" ++ roomCode ++ "-" ++ fileName
  if s.tokens.contains syncKey then (s, [])
  else
    let tokens := syncKey :: s.tokens
    match lookupA s.diskFiles fileName with
    | none => ({ s with tokens := tokens }, [])
    | some content =>
      let extension := watcherExt fileName
      let currentContent := contentOrEmpty s.tree fileName
      if currentContent == content then ({ s with tokens := tokens }, [])
      else
        ({ s with tokens := tokens,
                  tree := setA s.tree fileName (FileNode.file content extension false) },
         [⟨Target.room roomCode, "files-update", []⟩,
          ⟨Target.room roomCode, "file-synced", [fileName, content]⟩])

/-- Reassignment of active files shared by the watcher unlink handler and
the delete-item handler: every member whose active file is among the
deleted paths is switched to `newActive` and privately notified. -/
def reassignActiveFiles (members : List String) (actives : List (String × String))
    (deleted : List String) (newActive newContent : String) :
    List (String × String) × List Emit :=
  members.foldl
    (fun acc u =>
      match lookupA acc.1 u with
      | some af =>
        if deleted.contains af then
          (setA acc.1 u newActive,
           acc.2 ++ [⟨Target.user u, "file-content-update", [newActive, newContent]⟩,
                     ⟨Target.user u, "active-file-changed", [newActive]⟩])
        else acc
      | none => acc)
    (actives, [])

/-- TerminalManager.removeFileFromRoomFiles (watcher unlink → tree):
deletes the node unconditionally, then reassigns active files to the
first remaining file (when any remains) and broadcasts. -/
def removeFileFromRoomFiles (s : RoomState) (roomCode fileName : String) :
    RoomState × List Emit :=
  match lookupA s.tree fileName with
  | none => (s, [])
  | some _ =>
    let tree := delA s.tree fileName
    let (actives, activeEmits) :=
      match fileKeys tree with
      | [] => (s.activeFiles, [])
      | newActive :: _ =>
        reassignActiveFiles s.members s.activeFiles [fileName] newActive
          (contentOrEmpty tree newActive)
    ({ s with tree := tree, activeFiles := actives },
     activeEmits ++
       [⟨Target.room roomCode, "files-update", []⟩,
        ⟨Target.room roomCode, "item-deleted", [fileName, "file"]⟩])

/-- TerminalManager.removeFolderFromRoomFiles (watcher unlinkDir → tree):
deletes the folder key and every key under `folderPath + '/'`,
unconditionally, and broadcasts. -/
def removeFolderFromRoomFiles (s : RoomState) (roomCode folderPath : String) :
    RoomState × List Emit :=
  let keysToDelete :=
    (keysOf s.tree).filter (fun k => k == folderPath || jsStartsWith k (folderPath ++ "/"))
  let tree := keysToDelete.foldl delA s.tree
  ({ s with tree := tree },
   [⟨Target.room roomCode, "files-update", []⟩,
    ⟨Target.room roomCode, "item-deleted", [folderPath, "folder"]⟩])

/-- Deletion of one path from the working directory as in the delete-item
handler: unlink for a file, recursive remove for a directory, ignore
when absent. -/
def diskDeleteItem (df : List (String × String)) (dd : List String) (item : String) :
    List (String × String) × List String :=
  if (lookupA df item).isSome then (delA df item, dd)
  else if dd.contains item then
    (df.filter (fun p => !(jsStartsWith p.1 (item ++ "/"))),
     dd.filter (fun d => !(d == item || jsStartsWith d (item ++ "/"))))
  else (df, dd)

/-- Insertion sort by the default JS comparator (lexicographic on code
units); `Array.prototype.sort()` as used on the key lists of folder
rename and move. -/
def insertSorted (k : String) : List String → List String
  | [] => [k]
  | x :: xs => if k ≤ x then k :: x :: xs else x :: insertSorted k xs

def jsSort (l : List String) : List String := l.foldr insertSorted []

/-- Gateway handler for `delete-item` (file or folder).  Mirrors the
source: not-found check, last-file check for files only, collection of
the affected keys (a folder takes its whole subtree), deletion from the
working directory, deletion from the tree, active-file reassignment, and
the room broadcasts. -/
def deleteItemHandler (s : RoomState) (roomCode requester itemPath : String) :
    RoomState × List Emit :=
  match lookupA s.tree itemPath with
  | none => (s, [⟨Target.user requester, "file-error", ["Item not found"]⟩])
  | some node =>
    if isFile node && decide (countFiles s.tree ≤ 1) then
      (s, [⟨Target.user requester, "file-error", ["Cannot delete the last file"]⟩])
    else
      let itemsToDelete :=
        if isFile node then [itemPath]
        else (keysOf s.tree).filter
          (fun k => k == itemPath || jsStartsWith k (itemPath ++ "/"))
      let (df, dd) :=
        match s.workDir with
        | none => (s.diskFiles, s.diskDirs)
        | some _ =>
          itemsToDelete.foldl (fun acc item => diskDeleteItem acc.1 acc.2 item)
            (s.diskFiles, s.diskDirs)
      let tree := itemsToDelete.foldl delA s.tree
      let requesterActiveDeleted :=
        match lookupA s.activeFiles requester with
        | some af => itemsToDelete.contains af
        | none => false
      let (actives, activeEmits) :=
        if isFile node || requesterActiveDeleted then
          match fileKeys tree with
          | [] => (s.activeFiles, [])
          | newActive :: _ =>
            reassignActiveFiles s.members s.activeFiles itemsToDelete newActive
              (contentOrEmpty tree newActive)
        else (s.activeFiles, [])
      ({ s with tree := tree, diskFiles := df, diskDirs := dd, activeFiles := actives },
       activeEmits ++
         [⟨Target.room roomCode, "files-update", []⟩,
          ⟨Target.room roomCode, "item-deleted", [itemPath, nodeTypeStr node]⟩])

/-- New key of one affected path in a folder rename:
`relativePath = itemPath === oldPath ? '' : itemPath.substring(oldPath.length+1)`
then `newItemPath = relativePath ? newPath + '/' + relativePath : newPath`. -/
def jsNewKey (oldPath newPath k : String) : String :=
  let relativePath := if k == oldPath then "" else jsSubstringFrom k (oldPath.length + 1)
  if relativePath == "" then newPath else newPath ++ "/" ++ relativePath

/-- Creation loop of the folder rename: for each affected key (in sorted
order) the current node is copied to its new key.  New keys are absent
from the object, so each JS assignment appends. -/
def createEntriesFold (t : RoomTree) (oldPath newPath : String) (items : List String) :
    RoomTree :=
  items.foldl
    (fun acc k =>
      match lookupA acc k with
      | some v => setA acc (jsNewKey oldPath newPath k) v
      | none => acc)
    t

/-- Active-file shifts performed inside the rename loops: for each
(old, new) key pair, every member whose active file is the old key moves
to the new key and is privately notified. -/
def renameActivesFold (members : List String) (actives : List (String × String))
    (pairs : List (String × String)) : List (String × String) × List Emit :=
  pairs.foldl
    (fun acc pr =>
      members.foldl
        (fun acc2 u =>
          if lookupA acc2.1 u = some pr.1 then
            (setA acc2.1 u pr.2,
             acc2.2 ++ [⟨Target.user u, "active-file-changed", [pr.2]⟩])
          else acc2)
        acc)
    (actives, [])

/-- Rename of a path inside the working directory (`fs.renameSync` after
an existence check and a recursive mkdir of the target parent); a
directory carries its subtree along. -/
def diskRenamePath (oldPath newPath k : String) : String :=
  if k == oldPath then newPath
  else if jsStartsWith k (oldPath ++ "/") then
    newPath ++ "/" ++ jsSubstringFrom k (oldPath.length + 1)
  else k

def diskRenameOp (s : RoomState) (oldPath newPath : String) : RoomState :=
  match s.workDir with
  | none => s
  | some _ =>
    if (lookupA s.diskFiles oldPath).isSome || s.diskDirs.contains oldPath then
      { s with
          diskDirs :=
            (mkdirRec s.diskDirs (dirnameOf newPath)).map (diskRenamePath oldPath newPath),
          diskFiles := s.diskFiles.map (fun p => (diskRenamePath oldPath newPath p.1, p.2)) }
    else s

/-- Gateway handler for `rename-item`.  Mirrors the source: not-found and
already-exists checks, the working-directory rename, then for folders the
sorted subtree re-keying (create new entries, shift actives, delete old
entries) and for files the simple re-key with the extension re-derived by
`newPath.split('.').pop() || 'txt'`; finally the room broadcasts. -/
def renameItemHandler (s : RoomState) (roomCode requester oldPath newPath : String) :
    RoomState × List Emit :=
  match lookupA s.tree oldPath with
  | none => (s, [⟨Target.user requester, "file-error", ["Item not found"]⟩])
  | some node =>
    if (lookupA s.tree newPath).isSome then
      (s, [⟨Target.user requester, "file-error", ["Item with new name already exists"]⟩])
    else
      let s1 := diskRenameOp s oldPath newPath
      if !(isFile node) then
        let items := jsSort ((keysOf s1.tree).filter
          (fun k => k == oldPath || jsStartsWith k (oldPath ++ "/")))
        let tree1 := createEntriesFold s1.tree oldPath newPath items
        let (actives, activeEmits) :=
          renameActivesFold s1.members s1.activeFiles
            (items.map (fun k => (k, jsNewKey oldPath newPath k)))
        let tree2 := items.foldl delA tree1
        ({ s1 with tree := tree2, activeFiles := actives },
         activeEmits ++
           [⟨Target.room roomCode, "files-update", []⟩,
            ⟨Target.room roomCode, "item-renamed", [oldPath, newPath, "folder"]⟩])
      else
        let newNode :=
          match node with
          | FileNode.file c _ x => FileNode.file c (jsSplitPopExt newPath) x
          | other => other
        let tree1 := delA (setA s1.tree newPath newNode) oldPath
        let (actives, activeEmits) :=
          renameActivesFold s1.members s1.activeFiles [(oldPath, newPath)]
        ({ s1 with tree := tree1, activeFiles := actives },
         activeEmits ++
           [⟨Target.room roomCode, "files-update", []⟩,
            ⟨Target.room roomCode, "item-renamed", [oldPath, newPath, "file"]⟩])

/-- Gateway handler for `code-change`.  The target is the payload file
name or, when that is falsy, the sender's active file; a falsy target is
silently dropped.  A present file node has its content replaced, the file
is written to the working directory through the arbiter, and `code-update`
is broadcast to the other members; a missing or non-file target is only
logged: no event is emitted and nothing is mutated. -/
def codeChangeHandler (s : RoomState) (roomCode sender : String)
    (fileName : Option String) (code : String) : RoomState × List Emit :=
  let targetFileName :=
    match fileName with
    | some fn => if fn == "" then (lookupA s.activeFiles sender).getD "" else fn
    | none => (lookupA s.activeFiles sender).getD ""
  if targetFileName == "" then (s, [])
  else
    match lookupA s.tree targetFileName with
    | some (FileNode.file _ e x) =>
      let s1 := { s with tree := setA s.tree targetFileName (FileNode.file code e x) }
      let s2 := (writeFileToWorkingDir s1 roomCode targetFileName code).1
      (s2, [⟨Target.roomExcept roomCode sender, "code-update", [code, targetFileName, sender]⟩])
    | _ => (s, [])

/-- One persisted room record (roomModel): unique code and bcrypt hash. -/
structure PersistedRoom where
  roomCode : String
  passwordHash : String
deriving DecidableEq, Repr

/-- Process-wide server state touched by the join flow: the persisted
rooms table, the in-memory membership lists, the per-room trees, the
active-file map, the session map (abstracted to the joined room code),
and the TerminalManager registries. -/
structure ServerState where
  db : List PersistedRoom
  rooms : List (String × List String)
  roomFiles : List (String × RoomTree)
  userActiveFiles : List (String × String)
  userSessions : List (String × String)
  terminals : List String
  userRooms : List (String × String)
deriving DecidableEq, Repr

/-- Lookup `roomModel.findOne({roomCode})`. -/
def findRoom (db : List PersistedRoom) (code : String) : Option PersistedRoom :=
  db.find? (fun r => r.roomCode == code)

def getDefaultFiles : RoomTree :=
  [("main.js", FileNode.file "// start typing..." "js" false)]

/-- Reply delivered through the `join-room` callback. -/
inductive JoinReply where
  | failure (error : String)
  | alreadyJoined
  | success (files : RoomTree) (activeFile : Option String)
deriving DecidableEq, Repr

/-- TerminalManager.initializeTerminal restricted to the registries and
emissions (the PTY spawn, watcher setup and the delayed initial sync are
outside the pure state): spawns at most once per user and sends the
welcome banner to the owning user only. -/
def initializeTerminalS (s : ServerState) (roomCode userId : String) :
    ServerState × List Emit :=
  if s.terminals.contains userId then (s, [])
  else
    ({ s with terminals := userId :: s.terminals,
              userRooms := setA s.userRooms userId roomCode },
     [⟨Target.user userId, "terminal-output",
       ["\x1b[32m✓ Terminal initialized for room: " ++ roomCode ++ "\x1b[0m\r\n"]⟩])

/-- Gateway handler for `join-room`, with `compare` standing for
`bcrypt.compare(password, storedHash)`.  Mirrors the source: room lookup,
password check, session record, in-memory rehydration with the default
files, duplicate-join check, membership push, active-file assignment to
the first file in insertion order, terminal initialization, the
`user-joined` notification, and the structured reply. -/
def joinRoomHandler (compare : String → String → Bool) (s : ServerState)
    (socketId username roomCode password : String) :
    ServerState × List Emit × JoinReply :=
  match findRoom s.db roomCode with
  | none => (s, [], JoinReply.failure "Room not found. Please check the room code.")
  | some room =>
    if !(compare password room.passwordHash) then
      (s, [], JoinReply.failure "Invalid password. Please try again.")
    else
      let s1 := { s with userSessions := setA s.userSessions socketId roomCode }
      let s2 :=
        if (lookupA s1.rooms roomCode).isNone then
          { s1 with rooms := setA s1.rooms roomCode [],
                    roomFiles := setA s1.roomFiles roomCode getDefaultFiles }
        else s1
      let memberList := (lookupA s2.rooms roomCode).getD []
      if memberList.contains socketId then (s2, [], JoinReply.alreadyJoined)
      else
        let s3 := { s2 with rooms := setA s2.rooms roomCode (memberList ++ [socketId]) }
        let tree := (lookupA s3.roomFiles roomCode).getD []
        let firstFile := (fileKeys tree).head?
        let s4 :=
          match firstFile with
          | some f => { s3 with userActiveFiles := setA s3.userActiveFiles socketId f }
          | none => { s3 with userActiveFiles := delA s3.userActiveFiles socketId }
        let (s5, termEmits) := initializeTerminalS s4 roomCode socketId
        (s5,
         termEmits ++ [⟨Target.roomExcept roomCode socketId, "user-joined", [username, socketId]⟩],
         JoinReply.success tree firstFile)

/-- Gateway handler for `get-files`: replies with the room's mapping or
an empty mapping; touches nothing and emits nothing. -/
def getFilesHandler (s : ServerState) (roomCode : String) :
    ServerState × List Emit × RoomTree :=
  (s, [], (lookupA s.roomFiles roomCode).getD [])

/-- Gateway handler for `get-file-content`: replies with the content of a
present file node and with the empty string otherwise (unknown room,
absent entry, or folder entry); touches nothing and emits nothing. -/
def getFileContentHandler (s : ServerState) (roomCode fileName : String) :
    ServerState × List Emit × String :=
  (s, [],
   match lookupA s.roomFiles roomCode with
   | none => ""
   | some t =>
     match lookupA t fileName with
     | some (FileNode.file c _ _) => c
     | _ => "")

/-- Emission performed by the `ptyProcess.onData` callback registered in
initializeTerminal: the raw shell bytes go to the owning user's private
channel. -/
def ptyOnDataEmits (userId data : String) : List Emit :=
  [⟨Target.user userId, "terminal-output", [data]⟩]

/-- Emissions performed by the `ptyProcess.onExit` callback: the red
session-ended banner, again to the owning user's private channel. -/
def ptyOnExitEmits (userId : String) : List Emit :=
  [⟨Target.user userId, "terminal-output", ["\r\n\x1b[31mTerminal session ended\x1b[0m\r\n"]⟩]

/-- Emissions of TerminalManager.handleInput: nothing when the shell is
present (the bytes go to the PTY), a private error banner otherwise. -/
def handleInputEmits (s : ServerState) (userId : String) : List Emit :=
  if s.terminals.contains userId then []
  else [⟨Target.user userId, "terminal-output", ["\x1b[31mError: Terminal not initialized\x1b[0m\r\n"]⟩]

/-- Membership of a path in the flat subtree rooted at `a`: the path is
`a` itself or lies below `a ++ "/"`. -/
def inSub (a k : String) : Prop := k = a ∨ jsStartsWith k (a ++ "/") = true

instance (a k : String) : Decidable (inSub a k) := by
  unfold inSub
  infer_instance

/-- Keys affected by a folder rename, exactly as the handler computes
them: the sorted keys equal to the old path or under it. -/
def folderRenameItems (t : RoomTree) (oldPath : String) : List String :=
  jsSort ((keysOf t).filter (fun k => k == oldPath || jsStartsWith k (oldPath ++ "/")))

/-- Resulting tree of the folder branch of the rename handler. -/
def folderRenameTree (t : RoomTree) (oldPath newPath : String) : RoomTree :=
  (folderRenameItems t oldPath).foldl delA
    (createEntriesFold t oldPath newPath (folderRenameItems t oldPath))

/-- Extension re-derivation applied by a file rename landing on path `p`. -/
def rederiveExt (v : FileNode) (p : String) : FileNode :=
  match v with
  | FileNode.file c _ x => FileNode.file c (jsSplitPopExt p) x
  | FileNode.folder x => FileNode.folder x

/-! Concrete states used to exercise the handlers on explicit inputs. -/

/-- Room with one file and an active opposite-origin (terminal) token for
it: the state probed by the arbiter-gating claim. -/
def stC1 : RoomState :=
  { workDir := some "wd", tree := [("main.js", FileNode.file "x=1" "js" false)],
    diskFiles := [], diskDirs := [], tokens := ["terminal-R-main.js"],
    members := ["u1"], activeFiles := [("u1", "main.js")] }

/-- Room whose token set holds both own-origin tokens for main.js. -/
def stC1w : RoomState :=
  { workDir := some "wd", tree := [("main.js", FileNode.file "x=1" "js" false)],
    diskFiles := [("main.js", "x=1")], diskDirs := [], tokens := ["editor-R-main.js", "terminal-R-main.js"],
    members := ["u1"], activeFiles := [("u1", "main.js")] }

/-- Server state with one live terminal, used by the private-output claim. -/
def stC2 : ServerState :=
  { db := [], rooms := [("R", ["alice", "bob"])],
    roomFiles := [("R", [("main.js", FileNode.file "x" "js" false)])],
    userActiveFiles := [("alice", "main.js"), ("bob", "main.js")],
    userSessions := [], terminals := ["alice"], userRooms := [("alice", "R")] }

/-- Room whose only file sits inside a folder: deleting the folder
removes every file node. -/
def stC3 : RoomState :=
  { workDir := some "wd",
    tree := [("src", FileNode.folder false), ("src/main.js", FileNode.file "x" "js" false)],
    diskFiles := [("src/main.js", "x")], diskDirs := ["src"], tokens := [],
    members := ["alice"], activeFiles := [("alice", "src/main.js")] }

/-- Room with two files, used to witness the guarded file delete. -/
def stC3w : RoomState :=
  { workDir := some "wd",
    tree := [("main.js", FileNode.file "x" "js" false), ("a.js", FileNode.file "y" "js" false)],
    diskFiles := [("main.js", "x"), ("a.js", "y")], diskDirs := [], tokens := [],
    members := ["alice"], activeFiles := [("alice", "a.js")] }

/-- Fresh room before any disk write, used by the code-change claims. -/
def stC4 : RoomState :=
  { workDir := some "wd", tree := [("main.js", FileNode.file "old" "js" false)],
    diskFiles := [], diskDirs := [], tokens := [],
    members := ["u1", "u2"], activeFiles := [("u1", "main.js"), ("u2", "main.js")] }

/-- Server state with one persisted room, used by the join-room claim. -/
def stC5 : ServerState :=
  { db := [{ roomCode := "ABC123", passwordHash := "hashed-pw" }],
    rooms := [], roomFiles := [], userActiveFiles := [],
    userSessions := [], terminals := [], userRooms := [] }

/-- Plain-equality stand-in for the bcrypt comparison in concrete runs. -/
def plainCompare (password hash : String) : Bool := password == hash

/-- Room with exactly one file node (plus a folder), used by the
last-file-delete claim. -/
def stC6 : RoomState :=
  { workDir := some "wd",
    tree := [("src", FileNode.folder false), ("main.js", FileNode.file "x" "js" false)],
    diskFiles := [("main.js", "x")], diskDirs := ["src"], tokens := [],
    members := ["u1"], activeFiles := [("u1", "main.js")] }

/-- Room probed with a code-change for a path that is not present. -/
def stC7 : RoomState :=
  { workDir := some "wd", tree := [("main.js", FileNode.file "x" "js" false)],
    diskFiles := [("main.js", "x")], diskDirs := [], tokens := [],
    members := ["u1"], activeFiles := [("u1", "main.js")] }

/-- Room with a file at "a", renamed into a dotted folder. -/
def stC8 : RoomState :=
  { workDir := some "wd", tree := [("a", FileNode.file "x" "" false)],
    diskFiles := [("a", "x")], diskDirs := [], tokens := [],
    members := ["u1"], activeFiles := [("u1", "a")] }

/-- Room with a file whose stored extension differs from the one derived
from its whole path, for the round-trip counterexample. -/
def stC9 : RoomState :=
  { workDir := some "wd", tree := [("a", FileNode.file "c" "js" false)],
    diskFiles := [("a", "c")], diskDirs := [], tokens := [],
    members := ["u1"], activeFiles := [("u1", "a")] }

/-- Room with a folder and a file below it, for the round-trip witness. -/
def stC9w : RoomState :=
  { workDir := some "wd",
    tree := [("d", FileNode.folder false), ("d/f.js", FileNode.file "x" "js" false)],
    diskFiles := [("d/f.js", "x")], diskDirs := ["d"], tokens := [],
    members := ["u1"], activeFiles := [("u1", "d/f.js")] }

/-- Server state with one in-memory room holding a file and a folder,
used by the getter-totality claim. -/
def stC10 : ServerState :=
  { db := [], rooms := [("R", ["u1"])],
    roomFiles := [("R", [("main.js", FileNode.file "x" "js" false), ("src", FileNode.folder false)])],
    userActiveFiles := [("u1", "main.js")],
    userSessions := [], terminals := ["u1"], userRooms := [("u1", "R")] }

/-! Basic lemmas about the association-list operations. -/

theorem lookupA_setA_self {α : Type} (l : List (String × α)) (k : String) (v : α) :
    lookupA (setA l k v) k = some v := by
  induction l with
  | nil => simp [setA, lookupA]
  | cons p rest ih =>
    obtain ⟨k0, v0⟩ := p
    by_cases h : k0 = k
    · simp [setA, h, lookupA]
    · simp [setA, h, lookupA, ih]

theorem lookupA_setA_ne {α : Type} (l : List (String × α)) (k k0 : String) (v : α)
    (h : k0 ≠ k) : lookupA (setA l k v) k0 = lookupA l k0 := by
  induction l with
  | nil => simp [setA, lookupA, Ne.symm h]
  | cons p rest ih =>
    obtain ⟨k1, v1⟩ := p
    by_cases h1 : k1 = k
    · subst h1
      simp [setA, lookupA, Ne.symm h]
    · by_cases h2 : k1 = k0
      · subst h2
        simp [setA, h1, lookupA]
      · simp [setA, h1, lookupA, h2, ih]

theorem lookupA_delA_self {α : Type} (l : List (String × α)) (k : String) :
    lookupA (delA l k) k = none := by
  induction l with
  | nil => simp [delA, lookupA]
  | cons p rest ih =>
    obtain ⟨k0, v0⟩ := p
    by_cases h : k0 = k
    · simp [delA, h, ih]
    · simp [delA, h, lookupA, ih]

theorem lookupA_delA_ne {α : Type} (l : List (String × α)) (k k0 : String)
    (h : k0 ≠ k) : lookupA (delA l k) k0 = lookupA l k0 := by
  induction l with
  | nil => simp [delA, lookupA]
  | cons p rest ih =>
    obtain ⟨k1, v1⟩ := p
    by_cases h1 : k1 = k
    · subst h1
      simp [delA, lookupA, Ne.symm h, ih]
    · by_cases h2 : k1 = k0
      · subst h2
        simp [delA, h1, lookupA]
      · simp [delA, h1, lookupA, h2, ih]

theorem setA_eq_self_of_lookup {α : Type} (l : List (String × α)) (k : String) (v : α)
    (h : lookupA l k = some v) : setA l k v = l := by
  induction l with
  | nil => simp [lookupA] at h
  | cons p rest ih =>
    obtain ⟨k0, v0⟩ := p
    by_cases h0 : k0 = k
    · subst h0
      simp [lookupA] at h
      simp [setA, h]
    · simp [lookupA, h0] at h
      simp [setA, h0, ih h]

theorem setA_of_lookup_none {α : Type} (l : List (String × α)) (k : String) (v : α)
    (h : lookupA l k = none) : setA l k v = l ++ [(k, v)] := by
  induction l with
  | nil => simp [setA]
  | cons p rest ih =>
    obtain ⟨k0, v0⟩ := p
    by_cases h0 : k0 = k
    · simp [lookupA, h0] at h
    · simp [lookupA, h0] at h
      simp [setA, h0, ih h]

theorem lookupA_append {α : Type} (l1 l2 : List (String × α)) (k : String) :
    lookupA (l1 ++ l2) k =
      match lookupA l1 k with
      | some v => some v
      | none => lookupA l2 k := by
  induction l1 with
  | nil => simp [lookupA]
  | cons p rest ih =>
    obtain ⟨k0, v0⟩ := p
    by_cases h : k0 = k
    · simp [lookupA, h]
    · simp [lookupA, h, ih]

theorem lookupA_isSome_iff_mem_keys {α : Type} (l : List (String × α)) (k : String) :
    (lookupA l k).isSome = true ↔ k ∈ keysOf l := by
  induction l with
  | nil => simp [lookupA, keysOf]
  | cons p rest ih =>
    obtain ⟨k0, v0⟩ := p
    by_cases h : k0 = k
    · simp [lookupA, h, keysOf]
    · have hkeys : keysOf ((k0, v0) :: rest) = k0 :: keysOf rest := rfl
      rw [hkeys]
      simp only [lookupA, h, if_false, List.mem_cons]
      rw [ih]
      simp [Ne.symm h]

theorem lookupA_eq_none_iff_not_mem_keys {α : Type} (l : List (String × α)) (k : String) :
    lookupA l k = none ↔ k ∉ keysOf l := by
  rw [← lookupA_isSome_iff_mem_keys]
  cases lookupA l k <;> simp

theorem delFold_lookup {α : Type} (items : List String) (l : List (String × α)) (k : String) :
    lookupA (items.foldl delA l) k =
      if items.contains k then none else lookupA l k := by
  induction items generalizing l with
  | nil => simp
  | cons i rest ih =>
    by_cases h : i = k
    · subst h
      simp only [List.foldl_cons, ih, List.contains_cons]
      by_cases hr : i ∈ rest
      · simp [hr]
      · simp [hr, lookupA_delA_self]
    · simp only [List.foldl_cons, ih, List.contains_cons]
      rw [lookupA_delA_ne l i k (Ne.symm h)]
      simp [beq_iff_eq, Ne.symm h]

/-! String lemmas used for path reasoning. -/

theorem strEq_of_data (a b : String) (h : a.data = b.data) : a = b := by
  cases a
  cases b
  exact congrArg String.mk h

theorem strData_append (a b : String) : (a ++ b).data = a.data ++ b.data := by
  cases a
  cases b
  rfl

theorem strLength_data (a : String) : a.length = a.data.length := rfl

theorem strAppend_empty (a : String) : a ++ "" = a := by
  apply strEq_of_data
  rw [strData_append]
  simp

theorem listIsPre_iff {α : Type} [BEq α] [LawfulBEq α] (p l : List α) :
    listIsPre p l = true ↔ ∃ r, l = p ++ r := by
  induction p generalizing l with
  | nil =>
    simp [listIsPre]
  | cons a as ih =>
    cases l with
    | nil => simp [listIsPre]
    | cons b bs =>
      rw [show listIsPre (a :: as) (b :: bs) = (a == b && listIsPre as bs) from rfl]
      simp only [Bool.and_eq_true, beq_iff_eq, ih]
      constructor
      · rintro ⟨rfl, r, rfl⟩
        exact ⟨r, rfl⟩
      · rintro ⟨r, hr⟩
        rw [List.cons_append] at hr
        injection hr with h1 h2
        exact ⟨h1.symm, r, h2⟩

theorem jsStartsWith_iff (s pre : String) :
    jsStartsWith s pre = true ↔ ∃ r : String, s = pre ++ r := by
  unfold jsStartsWith
  rw [listIsPre_iff]
  constructor
  · rintro ⟨r, hr⟩
    refine ⟨String.mk r, strEq_of_data _ _ ?_⟩
    rw [strData_append]
    exact hr
  · rintro ⟨r, rfl⟩
    exact ⟨r.data, strData_append pre r⟩

theorem jsStartsWith_append (pre r : String) : jsStartsWith (pre ++ r) pre = true := by
  rw [jsStartsWith_iff]
  exact ⟨r, rfl⟩

theorem jsSubstringFrom_append (b r : String) :
    jsSubstringFrom (b ++ "/" ++ r) (b.length + 1) = r := by
  apply strEq_of_data
  show ((b ++ "/" ++ r).data).drop (b.length + 1) = r.data
  rw [strData_append, strData_append]
  have hsl : ("/" : String).data = ['/'] := rfl
  rw [hsl, strLength_data]
  have : b.data.length + 1 = (b.data ++ ['/']).length := by simp
  rw [this]
  exact List.drop_left _ _

theorem slash_append_ne_self (b r : String) : b ++ "/" ++ r ≠ b := by
  intro h
  have := congrArg (fun s : String => s.data.length) h
  simp only [strData_append] at this
  simp at this

theorem slash_append_inj (b r1 r2 : String) (h : b ++ "/" ++ r1 = b ++ "/" ++ r2) :
    r1 = r2 := by
  have hd := congrArg String.data h
  simp only [strData_append] at hd
  have := List.append_cancel_left hd
  exact strEq_of_data _ _ this

theorem append_slash_ne (b : String) : b ++ "/" ≠ b := by
  intro h
  have := congrArg (fun s : String => s.data.length) h
  simp only [strData_append] at this
  simp at this

theorem listIsPre_total {α : Type} [BEq α] [LawfulBEq α] (p q l : List α)
    (h1 : listIsPre p l = true) (h2 : listIsPre q l = true) :
    listIsPre p q = true ∨ listIsPre q p = true := by
  induction l generalizing p q with
  | nil =>
    cases p with
    | nil => left; rfl
    | cons x p2 => simp [listIsPre] at h1
  | cons a l ih =>
    cases p with
    | nil => left; rfl
    | cons x p2 =>
      cases q with
      | nil => right; rfl
      | cons y q2 =>
        rw [show listIsPre (x :: p2) (a :: l) = (x == a && listIsPre p2 l) from rfl] at h1
        rw [show listIsPre (y :: q2) (a :: l) = (y == a && listIsPre q2 l) from rfl] at h2
        simp only [Bool.and_eq_true, beq_iff_eq] at h1 h2
        obtain ⟨rfl, h1⟩ := h1
        obtain ⟨rfl, h2⟩ := h2
        rcases ih p2 q2 h1 h2 with h | h
        · left
          simp [listIsPre, h]
        · right
          simp [listIsPre, h]

theorem jsStartsWith_total (k p1 p2 : String)
    (h1 : jsStartsWith k p1 = true) (h2 : jsStartsWith k p2 = true) :
    jsStartsWith p2 p1 = true ∨ jsStartsWith p1 p2 = true := by
  exact listIsPre_total _ _ _ h1 h2

theorem append_slash_cancel (a b : String) (h : a ++ "/" = b ++ "/") : a = b := by
  have hd := congrArg String.data h
  rw [strData_append, strData_append] at hd
  have : a.data = b.data := by
    have hsl : ("/" : String).data = ['/'] := rfl
    rw [hsl] at hd
    exact List.append_cancel_right hd
  exact strEq_of_data _ _ this

/-- When `a ++ "/"` is a prefix of `b ++ "/"` with `a ≠ b`, the path `b`
lies strictly inside the subtree of `a`. -/
theorem slash_pre_slash (a b : String) (hne : a ≠ b)
    (h : jsStartsWith (b ++ "/") (a ++ "/") = true) :
    jsStartsWith b (a ++ "/") = true := by
  rw [jsStartsWith_iff] at h
  obtain ⟨q, hq⟩ := h
  by_cases hq0 : q = ""
  · subst hq0
    rw [strAppend_empty] at hq
    exact absurd (append_slash_cancel _ _ hq.symm) hne
  · have hd := congrArg String.data hq
    rw [strData_append, strData_append] at hd
    have hqd : q.data ≠ [] := by
      intro hnil
      exact hq0 (strEq_of_data q "" hnil)
    rcases List.eq_nil_or_concat q.data with hnil | ⟨q1, cl, hcat⟩
    · exact absurd hnil hqd
    · rw [hcat, List.concat_eq_append, ← List.append_assoc] at hd
      have hsl : ("/" : String).data = ['/'] := rfl
      rw [hsl] at hd
      have hdl := congrArg List.dropLast hd
      simp only [List.dropLast_concat] at hdl
      rw [jsStartsWith_iff]
      refine ⟨String.mk q1, strEq_of_data _ _ ?_⟩
      rw [strData_append, hdl]



theorem subtrees_disjoint (a b k : String) (hne : a ≠ b)
    (hab1 : jsStartsWith b (a ++ "/") = false)
    (hab2 : jsStartsWith a (b ++ "/") = false) :
    ¬ (inSub a k ∧ inSub b k) := by
  rintro ⟨hka, hkb⟩
  rcases hka with rfl | hka
  · rcases hkb with rfl | hkb
    · exact hne rfl
    · rw [hkb] at hab2
      exact Bool.true_eq_false.mp hab2
  · rcases hkb with rfl | hkb
    · rw [hka] at hab1
      exact Bool.true_eq_false.mp hab1
    · rcases jsStartsWith_total k (a ++ "/") (b ++ "/") hka hkb with h | h
      · have := slash_pre_slash a b hne h
        rw [this] at hab1
        exact Bool.true_eq_false.mp hab1
      · have := slash_pre_slash b a (Ne.symm hne) h
        rw [this] at hab2
        exact Bool.true_eq_false.mp hab2

/-! Lemmas about the JS sort model. -/

theorem insertSorted_perm (k : String) (l : List String) :
    (insertSorted k l).Perm (k :: l) := by
  induction l with
  | nil => simp [insertSorted]
  | cons x xs ih =>
    by_cases h : k ≤ x
    · simp [insertSorted, h]
    · simp only [insertSorted, h, if_false]
      exact (List.Perm.cons x ih).trans (List.Perm.swap k x xs)

theorem jsSort_perm (l : List String) : (jsSort l).Perm l := by
  induction l with
  | nil => simp [jsSort]
  | cons x xs ih =>
    have h1 : jsSort (x :: xs) = insertSorted x (jsSort xs) := rfl
    rw [h1]
    exact (insertSorted_perm x (jsSort xs)).trans (List.Perm.cons x ih)

theorem mem_jsSort (l : List String) (k : String) : k ∈ jsSort l ↔ k ∈ l :=
  (jsSort_perm l).mem_iff

theorem nodup_jsSort (l : List String) (h : l.Nodup) : (jsSort l).Nodup :=
  (jsSort_perm l).nodup_iff.mpr h

/-! Lemmas about the key map of the folder rename. -/

theorem jsNewKey_self (a b : String) : jsNewKey a b a = b := by
  simp [jsNewKey]

theorem jsNewKey_child (a b r : String) (hr : r ≠ "") :
    jsNewKey a b (a ++ "/" ++ r) = b ++ "/" ++ r := by
  simp [jsNewKey, jsSubstringFrom_append, slash_append_ne_self a r, hr]

theorem inSub_elim (a k : String) (h : inSub a k) (hk : k ≠ a) :
    ∃ r, k = a ++ "/" ++ r := by
  rcases h with rfl | h
  · exact absurd rfl hk
  · rw [jsStartsWith_iff] at h
    obtain ⟨r, hr⟩ := h
    exact ⟨r, hr⟩

theorem jsNewKey_inSub (a b k : String) : inSub b (jsNewKey a b k) := by
  by_cases h1 : k = a
  · left
    simp [jsNewKey, h1]
  · by_cases h2 : jsSubstringFrom k (a.length + 1) = ""
    · left
      simp [jsNewKey, h1, h2]
    · right
      have hk : jsNewKey a b k = b ++ "/" ++ jsSubstringFrom k (a.length + 1) := by
        simp [jsNewKey, h1, h2]
      rw [hk]
      exact jsStartsWith_append (b ++ "/") _

theorem jsNewKey_inj_on (a b i j : String)
    (hi : inSub a i) (hj : inSub a j) (hi2 : i ≠ a ++ "/") (hj2 : j ≠ a ++ "/")
    (h : jsNewKey a b i = jsNewKey a b j) : i = j := by
  by_cases hia : i = a
  · by_cases hja : j = a
    · rw [hia, hja]
    · obtain ⟨r, rfl⟩ := inSub_elim a j hj hja
      have hrne : r ≠ "" := fun h0 => hj2 (by rw [h0]; exact strAppend_empty _)
      rw [hia, jsNewKey_self, jsNewKey_child a b r hrne] at h
      exact absurd h.symm (slash_append_ne_self b r)
  · obtain ⟨ri, rfl⟩ := inSub_elim a i hi hia
    have hrine : ri ≠ "" := fun h0 => hi2 (by rw [h0]; exact strAppend_empty _)
    by_cases hja : j = a
    · rw [hja, jsNewKey_self, jsNewKey_child a b ri hrine] at h
      exact absurd h (slash_append_ne_self b ri)
    · obtain ⟨rj, rfl⟩ := inSub_elim a j hj hja
      have hrjne : rj ≠ "" := fun h0 => hj2 (by rw [h0]; exact strAppend_empty _)
      rw [jsNewKey_child a b ri hrine, jsNewKey_child a b rj hrjne] at h
      rw [slash_append_inj b ri rj h]

/-! Characterization of the creation loop of the folder rename. -/

theorem filterMap_lookup_congr (t1 t2 : RoomTree) (f : String → String)
    (items : List String)
    (h : ∀ i ∈ items, lookupA t1 i = lookupA t2 i) :
    items.filterMap (fun i => (lookupA t1 i).map (fun v => (f i, v)))
      = items.filterMap (fun i => (lookupA t2 i).map (fun v => (f i, v))) := by
  induction items with
  | nil => rfl
  | cons i is ih =>
    simp only [List.filterMap_cons]
    rw [h i (List.mem_cons_self i is)]
    have hrest := ih (fun j hj => h j (List.mem_cons_of_mem i hj))
    cases lookupA t2 i <;> simp [hrest]

theorem createEntriesFold_eq_append (a b : String) (items : List String) (t : RoomTree)
    (hnd : items.Nodup)
    (hinj : ∀ i ∈ items, ∀ j ∈ items, jsNewKey a b i = jsNewKey a b j → i = j)
    (hfresh : ∀ i ∈ items, lookupA t (jsNewKey a b i) = none)
    (hdisj : ∀ i ∈ items, ∀ j ∈ items, jsNewKey a b i ≠ j) :
    createEntriesFold t a b items
      = t ++ items.filterMap (fun i => (lookupA t i).map (fun v => (jsNewKey a b i, v))) := by
  induction items generalizing t with
  | nil => simp [createEntriesFold]
  | cons i is ih =>
    have hmemi : i ∈ i :: is := List.mem_cons_self i is
    have hstep : createEntriesFold t a b (i :: is)
        = createEntriesFold
            (match lookupA t i with
             | some v => setA t (jsNewKey a b i) v
             | none => t) a b is := rfl
    cases hv : lookupA t i with
    | none =>
      have hstep2 : createEntriesFold t a b (i :: is) = createEntriesFold t a b is := by
        rw [hstep, hv]
      rw [hstep2]
      simp only [List.filterMap_cons, hv, Option.map_none']
      exact ih t (hnd.of_cons)
        (fun j hj k hk hjk => hinj j (List.mem_cons_of_mem i hj) k (List.mem_cons_of_mem i hk) hjk)
        (fun j hj => hfresh j (List.mem_cons_of_mem i hj))
        (fun j hj k hk => hdisj j (List.mem_cons_of_mem i hj) k (List.mem_cons_of_mem i hk))
    | some v =>
      have hset : setA t (jsNewKey a b i) v = t ++ [(jsNewKey a b i, v)] :=
        setA_of_lookup_none t _ v (hfresh i hmemi)
      have hstep2 : createEntriesFold t a b (i :: is)
          = createEntriesFold (t ++ [(jsNewKey a b i, v)]) a b is := by
        rw [hstep, hv]
        show createEntriesFold (setA t (jsNewKey a b i) v) a b is
          = createEntriesFold (t ++ [(jsNewKey a b i, v)]) a b is
        rw [hset]
      have hi_not_mem : i ∉ is := (List.nodup_cons.mp hnd).1
      have hlook2 : ∀ j ∈ is, lookupA (t ++ [(jsNewKey a b i, v)]) j = lookupA t j := by
        intro j hj
        rw [lookupA_append]
        cases hj2 : lookupA t j with
        | some w => rfl
        | none =>
          have hne : jsNewKey a b i ≠ j :=
            hdisj i hmemi j (List.mem_cons_of_mem i hj)
          simp [lookupA, hne]
      have hfresh2 : ∀ j ∈ is, lookupA (t ++ [(jsNewKey a b i, v)]) (jsNewKey a b j) = none := by
        intro j hj
        rw [lookupA_append]
        rw [hfresh j (List.mem_cons_of_mem i hj)]
        have hne : jsNewKey a b i ≠ jsNewKey a b j := by
          intro he
          exact hi_not_mem
            (hinj i hmemi j (List.mem_cons_of_mem i hj) he ▸ hj)
        simp [lookupA, hne]
      rw [hstep2]
      rw [ih (t ++ [(jsNewKey a b i, v)]) (hnd.of_cons)
        (fun j hj k hk hjk => hinj j (List.mem_cons_of_mem i hj) k (List.mem_cons_of_mem i hk) hjk)
        hfresh2
        (fun j hj k hk => hdisj j (List.mem_cons_of_mem i hj) k (List.mem_cons_of_mem i hk))]
      rw [filterMap_lookup_congr (t ++ [(jsNewKey a b i, v)]) t (jsNewKey a b) is hlook2]
      simp [List.filterMap_cons, hv]

theorem lookupA_newList_none (t : RoomTree) (f : String → String) (items : List String)
    (k : String) (h : ∀ i ∈ items, f i ≠ k) :
    lookupA (items.filterMap (fun i => (lookupA t i).map (fun v => (f i, v)))) k = none := by
  induction items with
  | nil => rfl
  | cons i is ih =>
    simp only [List.filterMap_cons]
    cases hv : lookupA t i with
    | none =>
      exact ih (fun j hj => h j (List.mem_cons_of_mem i hj))
    | some v =>
      simp only [Option.map_some']
      show lookupA ((f i, v) :: _) k = none
      simp only [lookupA, h i (List.mem_cons_self i is), if_false]
      exact ih (fun j hj => h j (List.mem_cons_of_mem i hj))

theorem lookupA_newList_eq (t : RoomTree) (f : String → String) (items : List String)
    (k i0 : String) (hnd : items.Nodup)
    (hinj : ∀ i ∈ items, ∀ j ∈ items, f i = f j → i = j)
    (hi0 : i0 ∈ items) (hf : f i0 = k) :
    lookupA (items.filterMap (fun i => (lookupA t i).map (fun v => (f i, v)))) k
      = lookupA t i0 := by
  induction items with
  | nil => cases hi0
  | cons i is ih =>
    have hhead : i ∉ is := (List.nodup_cons.mp hnd).1
    rcases List.mem_cons.mp hi0 with rfl | hi0mem
    · cases hv : lookupA t i0 with
      | none =>
        simp only [List.filterMap_cons, hv, Option.map_none']
        rw [lookupA_newList_none]
        intro j hj he
        exact hhead
          ((hinj j (List.mem_cons_of_mem i0 hj) i0 (List.mem_cons_self i0 is)
            (he.trans hf.symm)) ▸ hj)
      | some v =>
        simp only [List.filterMap_cons, hv, Option.map_some']
        show lookupA ((f i0, v) :: _) k = some v
        simp [lookupA, hf]
    · cases hv : lookupA t i with
      | none =>
        simp only [List.filterMap_cons, hv, Option.map_none']
        exact ih hnd.of_cons
          (fun j hj k2 hk2 => hinj j (List.mem_cons_of_mem i hj) k2 (List.mem_cons_of_mem i hk2))
          hi0mem
      | some v =>
        have hne : f i ≠ k := by
          intro he
          exact hhead
            ((hinj i (List.mem_cons_self i is) i0 (List.mem_cons_of_mem i hi0mem)
              (he.trans hf.symm)) ▸ hi0mem)
        simp only [List.filterMap_cons, hv, Option.map_some']
        show lookupA ((f i, v) :: _) k = lookupA t i0
        simp only [lookupA, hne, if_false]
        exact ih hnd.of_cons
          (fun j hj k2 hk2 => hinj j (List.mem_cons_of_mem i hj) k2 (List.mem_cons_of_mem i hk2))
          hi0mem

theorem keysOf_append {α : Type} (l1 l2 : List (String × α)) :
    keysOf (l1 ++ l2) = keysOf l1 ++ keysOf l2 := by
  simp [keysOf]

theorem keysOf_delA_sublist {α : Type} (l : List (String × α)) (k : String) :
    (keysOf (delA l k)).Sublist (keysOf l) := by
  induction l with
  | nil => simp [delA, keysOf]
  | cons p rest ih =>
    obtain ⟨k0, v0⟩ := p
    by_cases h : k0 = k
    · simp only [delA, h, if_true]
      exact ih.trans (List.sublist_cons_self k (keysOf rest))
    · simp only [delA, h, if_false]
      exact List.Sublist.cons₂ k0 ih

theorem keysOf_delFold_sublist {α : Type} (items : List String) (l : List (String × α)) :
    (keysOf (items.foldl delA l)).Sublist (keysOf l) := by
  induction items generalizing l with
  | nil => simp
  | cons i is ih =>
    exact (ih (delA l i)).trans (keysOf_delA_sublist l i)

theorem mem_keysOf_newList (t : RoomTree) (f : String → String) (items : List String)
    (y : String)
    (hy : y ∈ keysOf (items.filterMap (fun i => (lookupA t i).map (fun v => (f i, v))))) :
    ∃ i ∈ items, y = f i := by
  induction items with
  | nil => cases hy
  | cons i is ih =>
    simp only [List.filterMap_cons] at hy
    cases hv : lookupA t i with
    | none =>
      rw [hv] at hy
      obtain ⟨j, hj, he⟩ := ih hy
      exact ⟨j, List.mem_cons_of_mem i hj, he⟩
    | some v =>
      rw [hv] at hy
      rcases List.mem_cons.mp hy with he | hy2
      · exact ⟨i, List.mem_cons_self i is, he⟩
      · obtain ⟨j, hj, he⟩ := ih hy2
        exact ⟨j, List.mem_cons_of_mem i hj, he⟩

theorem nodup_keysOf_newList (t : RoomTree) (f : String → String) (items : List String)
    (hnd : items.Nodup)
    (hinj : ∀ i ∈ items, ∀ j ∈ items, f i = f j → i = j) :
    (keysOf (items.filterMap (fun i => (lookupA t i).map (fun v => (f i, v))))).Nodup := by
  induction items with
  | nil => simp [keysOf]
  | cons i is ih =>
    have hhead : i ∉ is := (List.nodup_cons.mp hnd).1
    have ihr := ih hnd.of_cons
      (fun j hj k2 hk2 => hinj j (List.mem_cons_of_mem i hj) k2 (List.mem_cons_of_mem i hk2))
    simp only [List.filterMap_cons]
    cases hv : lookupA t i with
    | none => exact ihr
    | some v =>
      simp only [Option.map_some']
      refine List.Nodup.cons ?_ ihr
      intro hmem
      obtain ⟨j, hj, he⟩ := mem_keysOf_newList t f is (f i) hmem
      exact hhead
        ((hinj i (List.mem_cons_self i is) j (List.mem_cons_of_mem i hj) he) ▸ hj)



theorem mem_folderRenameItems (t : RoomTree) (a k : String) :
    k ∈ folderRenameItems t a ↔ k ∈ keysOf t ∧ inSub a k := by
  unfold folderRenameItems
  rw [mem_jsSort, List.mem_filter]
  simp [inSub]

theorem nodup_folderRenameItems (t : RoomTree) (a : String) (h : (keysOf t).Nodup) :
    (folderRenameItems t a).Nodup :=
  nodup_jsSort _ (h.filter _)

theorem contains_eq_false_of_not_mem (l : List String) (k : String) (h : k ∉ l) :
    l.contains k = false := by
  simp [h]

theorem contains_eq_true_of_mem (l : List String) (k : String) (h : k ∈ l) :
    l.contains k = true := by
  simp [h]

theorem folderRenameTree_lookup (t : RoomTree) (a b : String) (v : FileNode)
    (hnd : (keysOf t).Nodup)
    (ha : lookupA t a = some v)
    (hb : ∀ k ∈ keysOf t, ¬ inSub b k)
    (hab1 : jsStartsWith b (a ++ "/") = false)
    (hab2 : jsStartsWith a (b ++ "/") = false)
    (hsa : (a ++ "/") ∉ keysOf t)
    (hne : a ≠ b) :
    ∀ k, lookupA (folderRenameTree t a b) k =
      if k = b then lookupA t a
      else if jsStartsWith k (b ++ "/") = true then
        lookupA t (a ++ "/" ++ jsSubstringFrom k (b.length + 1))
      else if inSub a k then none
      else lookupA t k := by
  intro k
  have hitems_nodup := nodup_folderRenameItems t a hnd
  have hitems_sub : ∀ j ∈ folderRenameItems t a, j ∈ keysOf t ∧ inSub a j :=
    fun j hj => (mem_folderRenameItems t a j).mp hj
  have hitems_ne_slash : ∀ j ∈ folderRenameItems t a, j ≠ a ++ "/" := by
    intro j hj he
    exact hsa (he ▸ (hitems_sub j hj).1)
  have hinj : ∀ i ∈ folderRenameItems t a, ∀ j ∈ folderRenameItems t a,
      jsNewKey a b i = jsNewKey a b j → i = j := by
    intro i hi j hj he
    exact jsNewKey_inj_on a b i j (hitems_sub i hi).2 (hitems_sub j hj).2
      (hitems_ne_slash i hi) (hitems_ne_slash j hj) he
  have hfresh : ∀ i ∈ folderRenameItems t a, lookupA t (jsNewKey a b i) = none := by
    intro i hi
    rw [lookupA_eq_none_iff_not_mem_keys]
    intro hmem
    exact hb _ hmem (jsNewKey_inSub a b i)
  have hdisj : ∀ i ∈ folderRenameItems t a, ∀ j ∈ folderRenameItems t a,
      jsNewKey a b i ≠ j := by
    intro i hi j hj he
    exact subtrees_disjoint a b j hne hab1 hab2 ⟨(hitems_sub j hj).2, he ▸ jsNewKey_inSub a b i⟩
  have hcreate := createEntriesFold_eq_append a b (folderRenameItems t a) t
    hitems_nodup hinj hfresh hdisj
  have hmain : lookupA (folderRenameTree t a b) k =
      if (folderRenameItems t a).contains k then none
      else lookupA (t ++ (folderRenameItems t a).filterMap
        (fun i => (lookupA t i).map (fun w => (jsNewKey a b i, w)))) k := by
    unfold folderRenameTree
    rw [delFold_lookup, hcreate]
  have hamem : a ∈ folderRenameItems t a := by
    rw [mem_folderRenameItems]
    refine ⟨?_, Or.inl rfl⟩
    rw [← lookupA_isSome_iff_mem_keys, ha]
    rfl
  by_cases hkb : k = b
  · have hknotmem : k ∉ folderRenameItems t a := by
      intro hmem
      exact hb k (hitems_sub k hmem).1 (Or.inl hkb)
    have htk : lookupA t k = none := by
      rw [lookupA_eq_none_iff_not_mem_keys]
      intro hmem
      exact hb k hmem (Or.inl hkb)
    rw [hmain, contains_eq_false_of_not_mem _ _ hknotmem]
    simp only [if_false, Bool.false_eq_true]
    rw [lookupA_append, htk]
    rw [if_pos hkb]
    rw [lookupA_newList_eq t (jsNewKey a b) (folderRenameItems t a) k a
      hitems_nodup hinj hamem ((jsNewKey_self a b).trans hkb.symm)]
  · by_cases hkpre : jsStartsWith k (b ++ "/") = true
    · obtain ⟨r, rfl⟩ := (jsStartsWith_iff k (b ++ "/")).mp hkpre
      have hsub : jsSubstringFrom (b ++ "/" ++ r) (b.length + 1) = r :=
        jsSubstringFrom_append b r
      have hknotkeys : (b ++ "/" ++ r) ∉ keysOf t := by
        intro hmem
        exact hb _ hmem (Or.inr hkpre)
      have hknotmem : (b ++ "/" ++ r) ∉ folderRenameItems t a := by
        intro hmem
        exact hknotkeys (hitems_sub _ hmem).1
      have htk : lookupA t (b ++ "/" ++ r) = none :=
        (lookupA_eq_none_iff_not_mem_keys t _).mpr hknotkeys
      rw [hmain, contains_eq_false_of_not_mem _ _ hknotmem]
      simp only [if_false, Bool.false_eq_true]
      rw [lookupA_append, htk]
      rw [if_neg hkb, if_pos hkpre, hsub]
      by_cases hr0 : r = ""
      · subst hr0
        have hkey : b ++ "/" ++ "" = b ++ "/" := strAppend_empty _
        have hnone : ∀ i ∈ folderRenameItems t a, jsNewKey a b i ≠ b ++ "/" ++ "" := by
          intro i hi he
          rcases (hitems_sub i hi).2 with rfl | hpre
          · rw [jsNewKey_self, hkey] at he
            exact append_slash_ne b he.symm
          · obtain ⟨ri, rfl⟩ := inSub_elim a i (Or.inr hpre) (by
              intro hia
              rw [hia] at he
              rw [jsNewKey_self, hkey] at he
              exact append_slash_ne b he.symm)
            have hrine : ri ≠ "" := by
              intro h0
              exact hitems_ne_slash _ hi (by rw [h0]; exact strAppend_empty _)
            rw [jsNewKey_child a b ri hrine] at he
            exact hrine (slash_append_inj b ri "" he)
        rw [lookupA_newList_none t (jsNewKey a b) _ _ hnone]
        have hsab : lookupA t (a ++ "/" ++ "") = none := by
          rw [lookupA_eq_none_iff_not_mem_keys]
          rw [strAppend_empty]
          exact hsa
        rw [hsab]
      · by_cases hi0 : (a ++ "/" ++ r) ∈ folderRenameItems t a
        · rw [lookupA_newList_eq t (jsNewKey a b) (folderRenameItems t a) (b ++ "/" ++ r)
            (a ++ "/" ++ r) hitems_nodup hinj hi0 (jsNewKey_child a b r hr0)]
        · have hnone : ∀ i ∈ folderRenameItems t a, jsNewKey a b i ≠ b ++ "/" ++ r := by
            intro i hi he
            rcases (hitems_sub i hi).2 with rfl | hpre
            · rw [jsNewKey_self] at he
              exact slash_append_ne_self b r he.symm
            · have hia : i ≠ a := by
                intro hia
                rw [hia, jsNewKey_self] at he
                exact slash_append_ne_self b r he.symm
              obtain ⟨ri, rfl⟩ := inSub_elim a i (Or.inr hpre) hia
              have hrine : ri ≠ "" := by
                intro h0
                exact hitems_ne_slash _ hi (by rw [h0]; exact strAppend_empty _)
              rw [jsNewKey_child a b ri hrine] at he
              rw [slash_append_inj b ri r he] at hi
              exact hi0 hi
          rw [lookupA_newList_none t (jsNewKey a b) _ _ hnone]
          have : lookupA t (a ++ "/" ++ r) = none := by
            rw [lookupA_eq_none_iff_not_mem_keys]
            intro hmem
            exact hi0 ((mem_folderRenameItems t a _).mpr
              ⟨hmem, Or.inr (jsStartsWith_append (a ++ "/") r)⟩)
          rw [this]
    · by_cases hin : inSub a k
      · rw [if_neg hkb, if_neg hkpre, if_pos hin]
        by_cases hkkeys : k ∈ keysOf t
        · have hkmem : k ∈ folderRenameItems t a :=
            (mem_folderRenameItems t a k).mpr ⟨hkkeys, hin⟩
          rw [hmain, contains_eq_true_of_mem _ _ hkmem]
          simp
        · have hknotmem : k ∉ folderRenameItems t a := by
            intro hmem
            exact hkkeys (hitems_sub k hmem).1
          rw [hmain, contains_eq_false_of_not_mem _ _ hknotmem]
          simp only [if_false, Bool.false_eq_true]
          rw [lookupA_append]
          rw [(lookupA_eq_none_iff_not_mem_keys t k).mpr hkkeys]
          have hnone : ∀ i ∈ folderRenameItems t a, jsNewKey a b i ≠ k := by
            intro i hi he
            exact subtrees_disjoint a b k hne hab1 hab2 ⟨hin, he ▸ jsNewKey_inSub a b i⟩
          rw [lookupA_newList_none t (jsNewKey a b) _ _ hnone]
      · have hknotmem : k ∉ folderRenameItems t a := by
          intro hmem
          exact hin (hitems_sub k hmem).2
        rw [hmain, contains_eq_false_of_not_mem _ _ hknotmem]
        simp only [if_false, Bool.false_eq_true]
        rw [if_neg hkb, if_neg hkpre, if_neg hin]
        rw [lookupA_append]
        cases htk : lookupA t k with
        | some w => rfl
        | none =>
          have hnone : ∀ i ∈ folderRenameItems t a, jsNewKey a b i ≠ k := by
            intro i hi he
            have := he ▸ jsNewKey_inSub a b i
            rcases this with rfl | hpre
            · exact hkb rfl
            · exact hkpre hpre
          rw [lookupA_newList_none t (jsNewKey a b) _ _ hnone]

theorem nodup_keysOf_folderRenameTree (t : RoomTree) (a b : String)
    (hnd : (keysOf t).Nodup)
    (hb : ∀ k ∈ keysOf t, ¬ inSub b k)
    (hsa : (a ++ "/") ∉ keysOf t) :
    (keysOf (folderRenameTree t a b)).Nodup := by
  have hitems_nodup := nodup_folderRenameItems t a hnd
  have hitems_sub : ∀ j ∈ folderRenameItems t a, j ∈ keysOf t ∧ inSub a j :=
    fun j hj => (mem_folderRenameItems t a j).mp hj
  have hitems_ne_slash : ∀ j ∈ folderRenameItems t a, j ≠ a ++ "/" := by
    intro j hj he
    exact hsa (he ▸ (hitems_sub j hj).1)
  have hinj : ∀ i ∈ folderRenameItems t a, ∀ j ∈ folderRenameItems t a,
      jsNewKey a b i = jsNewKey a b j → i = j := by
    intro i hi j hj he
    exact jsNewKey_inj_on a b i j (hitems_sub i hi).2 (hitems_sub j hj).2
      (hitems_ne_slash i hi) (hitems_ne_slash j hj) he
  have hfresh : ∀ i ∈ folderRenameItems t a, lookupA t (jsNewKey a b i) = none := by
    intro i hi
    rw [lookupA_eq_none_iff_not_mem_keys]
    intro hmem
    exact hb _ hmem (jsNewKey_inSub a b i)
  have hdisj : ∀ i ∈ folderRenameItems t a, ∀ j ∈ folderRenameItems t a,
      jsNewKey a b i ≠ j := by
    intro i hi j hj he
    have hbj := he ▸ jsNewKey_inSub a b i
    exact hb j (hitems_sub j hj).1 hbj
  have hcreate := createEntriesFold_eq_append a b (folderRenameItems t a) t
    hitems_nodup hinj hfresh hdisj
  have hbig : (keysOf (createEntriesFold t a b (folderRenameItems t a))).Nodup := by
    rw [hcreate, keysOf_append]
    rw [List.nodup_append]
    refine ⟨hnd, nodup_keysOf_newList t (jsNewKey a b) _ hitems_nodup hinj, ?_⟩
    intro x hx hx2
    obtain ⟨i, hi, rfl⟩ := mem_keysOf_newList t (jsNewKey a b) _ x hx2
    exact hb _ hx (jsNewKey_inSub a b i)
  have hsub : (keysOf (folderRenameTree t a b)).Sublist
      (keysOf (createEntriesFold t a b (folderRenameItems t a))) :=
    keysOf_delFold_sublist _ _
  exact hbig.sublist hsub

theorem diskRenameOp_tree (s : RoomState) (o n : String) :
    (diskRenameOp s o n).tree = s.tree := by
  unfold diskRenameOp
  split
  · rfl
  · split
    · rfl
    · rfl

theorem renameItemHandler_folder_tree (s : RoomState) (rc rq oldP newP : String) (x : Bool)
    (hold : lookupA s.tree oldP = some (FileNode.folder x))
    (hnew : lookupA s.tree newP = none) :
    (renameItemHandler s rc rq oldP newP).1.tree = folderRenameTree s.tree oldP newP := by
  simp only [renameItemHandler, hold, hnew, isFile, Option.isSome_none, Bool.not_false,
    Bool.false_eq_true, if_false, if_true, diskRenameOp_tree, folderRenameTree,
    folderRenameItems]

theorem renameItemHandler_file_tree (s : RoomState) (rc rq oldP newP c e : String) (x : Bool)
    (hold : lookupA s.tree oldP = some (FileNode.file c e x))
    (hnew : lookupA s.tree newP = none) :
    (renameItemHandler s rc rq oldP newP).1.tree
      = delA (setA s.tree newP (FileNode.file c (jsSplitPopExt newP) x)) oldP := by
  simp only [renameItemHandler, hold, hnew, isFile, Option.isSome_none, Bool.not_true,
    Bool.false_eq_true, if_false, if_true, diskRenameOp_tree]

theorem jsStartsWith_refl (p : String) : jsStartsWith p p = true := by
  rw [jsStartsWith_iff]
  exact ⟨"", (strAppend_empty p).symm⟩

theorem jsSubstringFrom_slash_self (b : String) :
    jsSubstringFrom (b ++ "/") (b.length + 1) = "" := by
  have := jsSubstringFrom_append b ""
  rw [strAppend_empty] at this
  exact this



/-- C9 amended: for paths `a`, `b` in disjoint subtrees (neither below
the other) with `b` and its subtree absent from the tree (and no key
equal to `a ++ "/"`), renameItem(a, b) followed by renameItem(b, a)
restores the tree's node mapping extensionally at every key, except that
a file node's stored extension is re-derived from the full path `a` by
`a.split('.').pop() || 'txt'` on the way back; a folder round trip is the
exact identity on the mapping. -/
theorem C9_amended_rename_round_trip (s : RoomState) (rc rq a b : String) (v : FileNode)
    (hnd : (keysOf s.tree).Nodup)
    (ha : lookupA s.tree a = some v)
    (hb : ∀ k ∈ keysOf s.tree, ¬ inSub b k)
    (hab1 : jsStartsWith b (a ++ "/") = false)
    (hab2 : jsStartsWith a (b ++ "/") = false)
    (hsa : (a ++ "/") ∉ keysOf s.tree)
    (hne : a ≠ b) :
    ∀ k, lookupA (renameItemHandler (renameItemHandler s rc rq a b).1 rc rq b a).1.tree k
      = if k = a then some (rederiveExt v a) else lookupA s.tree k := by
  have hbkeys : lookupA s.tree b = none := by
    rw [lookupA_eq_none_iff_not_mem_keys]
    intro hmem
    exact hb b hmem (Or.inl rfl)
  cases v with
  | folder x =>
    have h1tree : (renameItemHandler s rc rq a b).1.tree = folderRenameTree s.tree a b :=
      renameItemHandler_folder_tree s rc rq a b x ha hbkeys
    have char1 := folderRenameTree_lookup s.tree a b (FileNode.folder x) hnd ha hb hab1 hab2 hsa hne
    have h1b : lookupA (folderRenameTree s.tree a b) b = some (FileNode.folder x) := by
      rw [char1 b, if_pos rfl, ha]
    have h1a : lookupA (folderRenameTree s.tree a b) a = none := by
      rw [char1 a, if_neg hne, if_neg (by rw [hab2]; intro h; cases h),
        if_pos (show inSub a a from Or.inl rfl)]
    have hnd1 : (keysOf (folderRenameTree s.tree a b)).Nodup :=
      nodup_keysOf_folderRenameTree s.tree a b hnd hb hsa
    have hmemlook : ∀ k, k ∈ keysOf (folderRenameTree s.tree a b) →
        ¬ lookupA (folderRenameTree s.tree a b) k = none := by
      intro k hk
      rw [lookupA_eq_none_iff_not_mem_keys]
      exact fun h2 => h2 hk
    have hb1 : ∀ k ∈ keysOf (folderRenameTree s.tree a b), ¬ inSub a k := by
      intro k hk hsub_a
      have hlk := hmemlook k hk
      have hkb : k ≠ b := by
        rintro rfl
        rcases hsub_a with rfl | hpre
        · exact hne rfl
        · rw [hpre] at hab1
          cases hab1
      have hkpre : ¬ jsStartsWith k (b ++ "/") = true := by
        intro hpre
        exact subtrees_disjoint a b k hne hab1 hab2 ⟨hsub_a, Or.inr hpre⟩
      rw [char1 k, if_neg hkb, if_neg hkpre, if_pos hsub_a] at hlk
      exact hlk rfl
    have hsb1 : (b ++ "/") ∉ keysOf (folderRenameTree s.tree a b) := by
      rw [← lookupA_eq_none_iff_not_mem_keys]
      rw [char1 (b ++ "/"), if_neg (append_slash_ne b), if_pos (jsStartsWith_refl (b ++ "/"))]
      rw [jsSubstringFrom_slash_self, strAppend_empty]
      rw [lookupA_eq_none_iff_not_mem_keys]
      exact hsa
    have h2tree : (renameItemHandler (renameItemHandler s rc rq a b).1 rc rq b a).1.tree
        = folderRenameTree (folderRenameTree s.tree a b) b a := by
      have := renameItemHandler_folder_tree (renameItemHandler s rc rq a b).1 rc rq b a x
        (by rw [h1tree]; exact h1b) (by rw [h1tree]; exact h1a)
      rw [this, h1tree]
    have char2 := folderRenameTree_lookup (folderRenameTree s.tree a b) b a (FileNode.folder x)
      hnd1 h1b hb1 hab2 hab1 hsb1 (Ne.symm hne)
    intro k
    rw [h2tree, char2 k]
    by_cases hka : k = a
    · rw [if_pos hka, if_pos hka, h1b]
      rfl
    · rw [if_neg hka, if_neg hka]
      by_cases hkpre : jsStartsWith k (a ++ "/") = true
      · rw [if_pos hkpre]
        obtain ⟨r, rfl⟩ := (jsStartsWith_iff k (a ++ "/")).mp hkpre
        rw [jsSubstringFrom_append a r]
        rw [char1 (b ++ "/" ++ r)]
        rw [if_neg (slash_append_ne_self b r)]
        rw [if_pos (jsStartsWith_append (b ++ "/") r)]
        rw [jsSubstringFrom_append b r]
      · rw [if_neg hkpre]
        by_cases hkb : inSub b k
        · rw [if_pos hkb]
          rw [eq_comm, lookupA_eq_none_iff_not_mem_keys]
          intro hmem
          exact hb k hmem hkb
        · rw [if_neg hkb]
          have hkb2 : k ≠ b := fun h => hkb (Or.inl h)
          have hkpre2 : ¬ jsStartsWith k (b ++ "/") = true := fun h => hkb (Or.inr h)
          rw [char1 k, if_neg hkb2, if_neg hkpre2, if_neg (by
            intro hsub_a
            rcases hsub_a with rfl | hpre
            · exact hka rfl
            · exact hkpre hpre)]
  | file c e x =>
    have h1tree : (renameItemHandler s rc rq a b).1.tree
        = delA (setA s.tree b (FileNode.file c (jsSplitPopExt b) x)) a :=
      renameItemHandler_file_tree s rc rq a b c e x ha hbkeys
    have l1b : lookupA (renameItemHandler s rc rq a b).1.tree b
        = some (FileNode.file c (jsSplitPopExt b) x) := by
      rw [h1tree, lookupA_delA_ne _ _ _ (Ne.symm hne), lookupA_setA_self]
    have l1a : lookupA (renameItemHandler s rc rq a b).1.tree a = none := by
      rw [h1tree, lookupA_delA_self]
    have h2tree : (renameItemHandler (renameItemHandler s rc rq a b).1 rc rq b a).1.tree
        = delA (setA (renameItemHandler s rc rq a b).1.tree a
            (FileNode.file c (jsSplitPopExt a) x)) b :=
      renameItemHandler_file_tree (renameItemHandler s rc rq a b).1 rc rq b a
        c (jsSplitPopExt b) x l1b l1a
    intro k
    rw [h2tree]
    by_cases hka : k = a
    · subst hka
      rw [lookupA_delA_ne _ _ _ hne, lookupA_setA_self, if_pos rfl]
      rfl
    · rw [if_neg hka]
      by_cases hkb : k = b
      · subst hkb
        rw [lookupA_delA_self, hbkeys]
      · rw [lookupA_delA_ne _ _ _ hkb, lookupA_setA_ne _ _ _ _ hka, h1tree]
        rw [lookupA_delA_ne _ _ _ hka, lookupA_setA_ne _ _ _ _ hkb]

/-! Counting file nodes. -/

theorem countFiles_cons (k : String) (v : FileNode) (t : RoomTree) :
    countFiles ((k, v) :: t) = (if isFile v then 1 else 0) + countFiles t := by
  cases hv : isFile v <;> simp [countFiles, fileKeys, List.filter_cons, hv] <;> try omega

theorem one_le_countFiles_of_file (t : RoomTree) (p c e : String) (x : Bool)
    (h : lookupA t p = some (FileNode.file c e x)) : 1 ≤ countFiles t := by
  induction t with
  | nil => simp [lookupA] at h
  | cons q rest ih =>
    obtain ⟨k0, v0⟩ := q
    rw [countFiles_cons]
    by_cases h0 : k0 = p
    · subst h0
      have hv0 : v0 = FileNode.file c e x := by simpa [lookupA] using h
      subst hv0
      simp [isFile]
    · have h2 : lookupA rest p = some (FileNode.file c e x) := by
        simpa [lookupA, h0] using h
      have := ih h2
      omega

theorem delA_eq_self_of_not_mem {α : Type} (l : List (String × α)) (k : String)
    (h : k ∉ keysOf l) : delA l k = l := by
  induction l with
  | nil => rfl
  | cons p rest ih =>
    obtain ⟨k0, v0⟩ := p
    have hk0 : keysOf ((k0, v0) :: rest) = k0 :: keysOf rest := rfl
    rw [hk0] at h
    have h0 : k0 ≠ k := fun he => h (he ▸ List.mem_cons_self k0 (keysOf rest))
    have h1 : k ∉ keysOf rest := fun hm => h (List.mem_cons_of_mem k0 hm)
    simp [delA, h0, ih h1]

theorem countFiles_delA_file (t : RoomTree) (p c e : String) (x : Bool)
    (hnd : (keysOf t).Nodup)
    (h : lookupA t p = some (FileNode.file c e x)) :
    countFiles (delA t p) = countFiles t - 1 := by
  induction t with
  | nil => simp [lookupA] at h
  | cons q rest ih =>
    obtain ⟨k0, v0⟩ := q
    have hk0 : keysOf ((k0, v0) :: rest) = k0 :: keysOf rest := rfl
    rw [hk0] at hnd
    by_cases h0 : k0 = p
    · subst h0
      have hv0 : v0 = FileNode.file c e x := by simpa [lookupA] using h
      subst hv0
      have hnotmem : k0 ∉ keysOf rest := (List.nodup_cons.mp hnd).1
      have hdel : delA ((k0, FileNode.file c e x) :: rest) k0 = delA rest k0 := by
        simp [delA]
      rw [hdel, delA_eq_self_of_not_mem rest k0 hnotmem, countFiles_cons]
      simp [isFile]
    · have h2 : lookupA rest p = some (FileNode.file c e x) := by
        simpa [lookupA, h0] using h
      have h1 := ih (List.nodup_cons.mp hnd).2 h2
      have h2b := one_le_countFiles_of_file rest p c e x h2
      have hdel : delA ((k0, v0) :: rest) p = (k0, v0) :: delA rest p := by
        simp [delA, h0]
      rw [hdel, countFiles_cons, countFiles_cons, h1]
      cases isFile v0 <;> simp <;> try omega

theorem deleteItemHandler_file_tree (s : RoomState) (rc rq p c e : String) (x : Bool)
    (hnode : lookupA s.tree p = some (FileNode.file c e x))
    (hc : ¬ countFiles s.tree ≤ 1) :
    (deleteItemHandler s rc rq p).1.tree = delA s.tree p := by
  simp [deleteItemHandler, hnode, isFile, hc]

/-! Idempotence of the recursive mkdir on the directory set. -/

theorem mem_addAll_base (xs : List String) (dd : List String) (x : String) :
    x ∈ dd → x ∈ addAll dd xs := by
  induction xs generalizing dd with
  | nil => exact fun h => h
  | cons y ys ih =>
    intro h
    show x ∈ addAll (if dd.contains y then dd else dd ++ [y]) ys
    apply ih
    by_cases hy : y ∈ dd
    · simp [hy, h]
    · simp [hy, h]

theorem mem_addAll_arg (xs : List String) (dd : List String) (x : String) :
    x ∈ xs → x ∈ addAll dd xs := by
  induction xs generalizing dd with
  | nil => intro h; cases h
  | cons y ys ih =>
    intro h
    rcases List.mem_cons.mp h with rfl | h2
    · show x ∈ addAll (if dd.contains x then dd else dd ++ [x]) ys
      apply mem_addAll_base
      by_cases hy : x ∈ dd
      · simp [hy]
      · simp [hy]
    · exact ih _ h2

theorem addAll_eq_self (xs : List String) (dd : List String) :
    (∀ x ∈ xs, x ∈ dd) → addAll dd xs = dd := by
  induction xs generalizing dd with
  | nil => intro _; rfl
  | cons y ys ih =>
    intro h
    show addAll (if dd.contains y then dd else dd ++ [y]) ys = dd
    rw [if_pos (contains_eq_true_of_mem _ _ (h y (List.mem_cons_self y ys)))]
    exact ih dd (fun z hz => h z (List.mem_cons_of_mem y hz))

theorem mkdirRec_idem (dd : List String) (d : String) :
    mkdirRec (mkdirRec dd d) d = mkdirRec dd d := by
  unfold mkdirRec
  exact addAll_eq_self _ _ (fun x hx => mem_addAll_arg _ _ _ hx)

theorem lookup_disk_after_write (df : List (String × String)) (f c : String) :
    lookupA (if (match lookupA df f with
                 | some current => current != c
                 | none => true) then setA df f c else df) f = some c := by
  cases hd : lookupA df f with
  | none => simp [lookupA_setA_self]
  | some cur =>
    by_cases he : cur = c
    · subst he
      simp [hd]
    · simp [he, lookupA_setA_self]

theorem codeChange_first (s : RoomState) (rc u f c c0 e : String) (x : Bool) (w : String)
    (hf : f ≠ "")
    (hn : lookupA s.tree f = some (FileNode.file c0 e x))
    (hw : s.workDir = some w)
    (ht : ("editor-" ++ rc ++ "-" ++ f) ∉ s.tokens) :
    codeChangeHandler s rc u (some f) c
      = ({ s with tree := setA s.tree f (FileNode.file c e x),
                  tokens := ("editor-" ++ rc ++ "-" ++ f) :: s.tokens,
                  diskDirs := mkdirRec s.diskDirs (dirnameOf f),
                  diskFiles :=
                    if (match lookupA s.diskFiles f with
                        | some current => current != c
                        | none => true) then setA s.diskFiles f c else s.diskFiles },
         [⟨Target.roomExcept rc u, "code-update", [c, f, u]⟩]) := by
  simp [codeChangeHandler, hf, hn, writeFileToWorkingDir, ht, hw]

theorem codeChange_noop (s : RoomState) (rc u f c e : String) (x : Bool)
    (hf : f ≠ "")
    (htree : lookupA s.tree f = some (FileNode.file c e x)) :
    ((codeChangeHandler s rc u (some f) c).1.tree = s.tree) ∧
    ((codeChangeHandler s rc u (some f) c).2
        = [⟨Target.roomExcept rc u, "code-update", [c, f, u]⟩]) ∧
    (lookupA s.diskFiles f = some c →
      (codeChangeHandler s rc u (some f) c).1.diskFiles = s.diskFiles) ∧
    (lookupA s.diskFiles f = some c → mkdirRec s.diskDirs (dirnameOf f) = s.diskDirs →
      (codeChangeHandler s rc u (some f) c).1.diskDirs = s.diskDirs) := by
  have hset : setA s.tree f (FileNode.file c e x) = s.tree :=
    setA_eq_self_of_lookup s.tree f _ htree
  have hs1 : ({ s with tree := setA s.tree f (FileNode.file c e x) }) = s := by
    rw [hset]
  by_cases htok : ("editor-" ++ rc ++ "-" ++ f) ∈ s.tokens
  · simp [codeChangeHandler, hf, htree, writeFileToWorkingDir, hs1, hset, htok]
  · cases hw : s.workDir with
    | none => simp [codeChangeHandler, hf, htree, writeFileToWorkingDir, hs1, hset, htok, hw]
    | some w =>
      refine ⟨?_, ?_, ?_, ?_⟩
      · simp [codeChangeHandler, hf, htree, writeFileToWorkingDir, hs1, hset, htok, hw]
      · simp [codeChangeHandler, hf, htree, writeFileToWorkingDir, hs1, hset, htok, hw]
      · intro hdisk
        simp [codeChangeHandler, hf, htree, writeFileToWorkingDir, hs1, hset, htok, hw, hdisk]
      · intro hdisk hdirs
        simp [codeChangeHandler, hf, htree, writeFileToWorkingDir, hs1, hset, htok, hw, hdisk, hdirs]

/-! Claim theorems. -/

/-- C1 counterexample: with an active opposite-origin token
`terminal-R-main.js` for (R, main.js), the editor-to-disk write is not
dropped — it proceeds and mutates the disk — so the claimed
opposite-origin gating fails at this concrete input. -/
theorem C1_cex_opposite_token_does_not_gate :
    "terminal-R-main.js" ∈ stC1.tokens ∧
    lookupA stC1.diskFiles "main.js" = none ∧
    lookupA (writeFileToWorkingDir stC1 "R" "main.js" "x=1").1.diskFiles "main.js"
      = some "x=1" := by
  decide

/-- C1 amended: each direction of the sync is gated by its own-origin
token, not by the opposite one: an editor-to-disk write finding an active
`editor-<room>-<path>` token is dropped silently with no state change,
and a terminal-to-tree sync finding an active `terminal-<room>-<path>`
token is dropped silently with no state change and no emission. -/
theorem C1_amended_own_origin_token_gates (s1 s2 : RoomState)
    (roomCode filePath content : String) :
    (("editor-" ++ roomCode ++ "-" ++ filePath) ∈ s1.tokens →
      writeFileToWorkingDir s1 roomCode filePath content = (s1, true)) ∧
    (("terminal-" ++ roomCode ++ "-" ++ filePath) ∈ s2.tokens →
      syncFileFromTerminalToRoom s2 roomCode filePath = (s2, [])) := by
  constructor
  · intro h
    simp [writeFileToWorkingDir, h]
  · intro h
    simp [syncFileFromTerminalToRoom, h]

/-- C1 witness at a concrete state holding both own-origin tokens. -/
theorem C1_witness :
    writeFileToWorkingDir stC1w "R" "main.js" "zzz" = (stC1w, true) ∧
    syncFileFromTerminalToRoom stC1w "R" "main.js" = (stC1w, []) :=
  ⟨(C1_amended_own_origin_token_gates stC1w stC1w "R" "main.js" "zzz").1 (by decide),
   (C1_amended_own_origin_token_gates stC1w stC1w "R" "main.js" "zzz").2 (by decide)⟩

/-- C2: every `terminal-output` emission tied to user A's shell — the
raw output bytes, the exit banner, the welcome banner of terminal
initialization, and the not-initialized error of input handling — targets
A's private channel only, so none of them is delivered to a different
user B under any room membership (in particular when A and B share a
room). -/
theorem C2_terminal_output_only_to_owner
    (membership : String → List String) (s : ServerState)
    (A B data roomCode : String) (hAB : A ≠ B) :
    ∀ e ∈ ptyOnDataEmits A data ++ ptyOnExitEmits A ++
        (initializeTerminalS s roomCode A).2 ++ handleInputEmits s A,
      e.name = "terminal-output" ∧ ¬ deliveredTo membership e B := by
  intro e he
  obtain ⟨tgt, nm, pl⟩ := e
  have hfacts : tgt = Target.user A ∧ nm = "terminal-output" := by
    simp only [List.mem_append] at he
    rcases he with ((h | h) | h) | h
    · simp [ptyOnDataEmits] at h
      exact ⟨h.1, h.2.1⟩
    · simp [ptyOnExitEmits] at h
      exact ⟨h.1, h.2.1⟩
    · unfold initializeTerminalS at h
      by_cases hterm : s.terminals.contains A = true
      · rw [if_pos hterm] at h
        cases h
      · rw [if_neg hterm] at h
        simp at h
        exact ⟨h.1, h.2.1⟩
    · unfold handleInputEmits at h
      by_cases hterm : s.terminals.contains A = true
      · rw [if_pos hterm] at h
        cases h
      · rw [if_neg hterm] at h
        simp at h
        exact ⟨h.1, h.2.1⟩
  obtain ⟨h1, h2⟩ := hfacts
  subst h1
  subst h2
  refine ⟨rfl, ?_⟩
  intro hd
  exact hAB (hd.symm)

/-- C2 witness: at a concrete state, the shell-output event of "alice"
is not delivered to room-mate "bob". -/
theorem C2_witness :
    ("alice" : String) ≠ "bob" ∧
    (∀ e ∈ ptyOnDataEmits "alice" "ls\r\n" ++ ptyOnExitEmits "alice" ++
        (initializeTerminalS stC2 "R" "alice").2 ++ handleInputEmits stC2 "alice",
      e.name = "terminal-output" ∧
      ¬ deliveredTo (fun r => if r = "R" then ["alice", "bob"] else [r]) e "bob") :=
  ⟨by decide,
   C2_terminal_output_only_to_owner (fun r => if r = "R" then ["alice", "bob"] else [r])
     stC2 "alice" "bob" "ls\r\n" "R" (by decide)⟩

/-- C5: a join-room request for an unknown room code answers the callback
with the room-not-found failure, and one with a wrong password answers
with the invalid-password failure; in both cases the returned server
state is exactly the input state (no membership, session, active-file or
terminal change) and nothing is emitted. -/
theorem C5_join_room_failure_is_pure (compare : String → String → Bool)
    (s : ServerState) (socketId username roomCode password : String) :
    (findRoom s.db roomCode = none →
      joinRoomHandler compare s socketId username roomCode password
        = (s, [], JoinReply.failure "Room not found. Please check the room code.")) ∧
    (∀ room, findRoom s.db roomCode = some room →
      compare password room.passwordHash = false →
      joinRoomHandler compare s socketId username roomCode password
        = (s, [], JoinReply.failure "Invalid password. Please try again.")) := by
  constructor
  · intro h
    simp [joinRoomHandler, h]
  · intro room h hcmp
    simp [joinRoomHandler, h, hcmp]

/-- C5 witness: a concrete unknown room code and a concrete wrong
password both fail purely. -/
theorem C5_witness :
    (joinRoomHandler plainCompare stC5 "sock1" "alice" "NOPE" "pw"
      = (stC5, [], JoinReply.failure "Room not found. Please check the room code.")) ∧
    (joinRoomHandler plainCompare stC5 "sock1" "alice" "ABC123" "wrong"
      = (stC5, [], JoinReply.failure "Invalid password. Please try again.")) :=
  ⟨(C5_join_room_failure_is_pure plainCompare stC5 "sock1" "alice" "NOPE" "pw").1 (by decide),
   (C5_join_room_failure_is_pure plainCompare stC5 "sock1" "alice" "ABC123" "wrong").2
     { roomCode := "ABC123", passwordHash := "hashed-pw" } (by decide) (by decide)⟩

/-- C6: when the tree holds exactly one file node, a delete-item request
for that file fails with the cannot-delete-last-file error sent via
`file-error` to the requesting user only, and the whole room state (tree
and working directory included) is returned unchanged; folder nodes do
not count toward the file total. -/
theorem C6_last_file_delete_fails (s : RoomState)
    (roomCode requester itemPath c e : String) (x : Bool)
    (hnode : lookupA s.tree itemPath = some (FileNode.file c e x))
    (hcount : countFiles s.tree = 1) :
    deleteItemHandler s roomCode requester itemPath
      = (s, [⟨Target.user requester, "file-error", ["Cannot delete the last file"]⟩]) := by
  simp [deleteItemHandler, hnode, isFile, hcount]

/-- C6 witness: deleting the only file of a room with one file and one
folder fails with the last-file error and leaves the state unchanged. -/
theorem C6_witness :
    deleteItemHandler stC6 "R" "u1" "main.js"
      = (stC6, [⟨Target.user "u1", "file-error", ["Cannot delete the last file"]⟩]) :=
  C6_last_file_delete_fails stC6 "R" "u1" "main.js" "x" "js" false (by decide) (by decide)

/-- C7 counterexample: a code-change for a path absent from the tree is
dropped without any emission at all — in particular no `file-error`
reaches the requesting user, contrary to the claim. -/
theorem C7_cex_no_file_error_emitted :
    lookupA stC7.tree "nope.js" = none ∧
    codeChangeHandler stC7 "R" "u1" (some "nope.js") "y" = (stC7, []) := by
  decide

/-- C7 amended: a code-change whose target path is missing from the tree
or names a folder node is silently ignored: the state (tree and disk) is
returned unchanged and no event is emitted to anyone, not even the
requester. -/
theorem C7_amended_silent_drop (s : RoomState)
    (roomCode sender fileName code : String)
    (hf : fileName ≠ "")
    (h : lookupA s.tree fileName = none ∨
      ∃ x, lookupA s.tree fileName = some (FileNode.folder x)) :
    codeChangeHandler s roomCode sender (some fileName) code = (s, []) := by
  rcases h with h | ⟨x, h⟩
  · simp [codeChangeHandler, hf, h]
  · simp [codeChangeHandler, hf, h]

/-- C7 witness: a code-change targeting a folder node is silently
ignored. -/
theorem C7_witness :
    codeChangeHandler stC6 "R" "u1" (some "src") "y" = (stC6, []) :=
  C7_amended_silent_drop stC6 "R" "u1" "src" "y" (by decide)
    (Or.inr ⟨false, by decide⟩)

/-- C10: the get-files and get-file-content handlers are total and pure:
they return the state unchanged and emit nothing; get-files replies with
the room mapping when the room is in memory and with the empty mapping
otherwise; get-file-content replies with the stored content for a file
node and the empty string for an unknown room, an absent entry, or a
folder entry. -/
theorem C10_getters_total_and_pure (s : ServerState) (roomCode fileName : String) :
    ((getFilesHandler s roomCode).1 = s) ∧
    ((getFilesHandler s roomCode).2.1 = []) ∧
    (lookupA s.roomFiles roomCode = none → (getFilesHandler s roomCode).2.2 = []) ∧
    (∀ t, lookupA s.roomFiles roomCode = some t → (getFilesHandler s roomCode).2.2 = t) ∧
    ((getFileContentHandler s roomCode fileName).1 = s) ∧
    ((getFileContentHandler s roomCode fileName).2.1 = []) ∧
    (lookupA s.roomFiles roomCode = none →
      (getFileContentHandler s roomCode fileName).2.2 = "") ∧
    (∀ t, lookupA s.roomFiles roomCode = some t → lookupA t fileName = none →
      (getFileContentHandler s roomCode fileName).2.2 = "") ∧
    (∀ t x, lookupA s.roomFiles roomCode = some t →
      lookupA t fileName = some (FileNode.folder x) →
      (getFileContentHandler s roomCode fileName).2.2 = "") := by
  refine ⟨rfl, rfl, ?_, ?_, rfl, rfl, ?_, ?_, ?_⟩
  · intro h
    simp [getFilesHandler, h]
  · intro t h
    simp [getFilesHandler, h]
  · intro h
    simp [getFileContentHandler, h]
  · intro t h h2
    simp [getFileContentHandler, h, h2]
  · intro t x h h2
    simp [getFileContentHandler, h, h2]

/-- C10 witness: concrete replies for an unknown room, a present room,
an absent entry, and a folder entry. -/
theorem C10_witness :
    ((getFilesHandler stC10 "NOPE").2.2 = []) ∧
    ((getFilesHandler stC10 "R").2.2
      = [("main.js", FileNode.file "x" "js" false), ("src", FileNode.folder false)]) ∧
    ((getFileContentHandler stC10 "NOPE" "main.js").2.2 = "") ∧
    ((getFileContentHandler stC10 "R" "missing.js").2.2 = "") ∧
    ((getFileContentHandler stC10 "R" "src").2.2 = "") :=
  ⟨(C10_getters_total_and_pure stC10 "NOPE" "main.js").2.2.1 (by decide),
   (C10_getters_total_and_pure stC10 "R" "main.js").2.2.2.1 _ (by decide),
   (C10_getters_total_and_pure stC10 "NOPE" "main.js").2.2.2.2.2.2.1 (by decide),
   (C10_getters_total_and_pure stC10 "R" "missing.js").2.2.2.2.2.2.2.1
     [("main.js", FileNode.file "x" "js" false), ("src", FileNode.folder false)]
     (by decide) (by decide),
   (C10_getters_total_and_pure stC10 "R" "src").2.2.2.2.2.2.2.2
     [("main.js", FileNode.file "x" "js" false), ("src", FileNode.folder false)]
     false (by decide) (by decide)⟩

/-- C3 counterexample: in a room with one member whose single file node
lives inside a folder, the editor delete-item of that folder removes
every file node: the room stays in memory with members present but its
file mapping holds zero file nodes, refuting the invariant. -/
theorem C3_cex_folder_delete_empties_files :
    stC3.members ≠ [] ∧
    countFiles stC3.tree = 1 ∧
    countFiles (deleteItemHandler stC3 "R" "alice" "src").1.tree = 0 ∧
    (deleteItemHandler stC3 "R" "alice" "src").1.members ≠ [] := by
  decide

/-- C3 amended: only the direct file path of delete-item is guarded:
a delete-item request that targets a file node always leaves at least
one file node in the tree (it is refused when the target is the last
file); folder deletes and the watcher-driven removals carry no such
guard and can empty the room of files, as the counterexample shows. -/
theorem C3_amended_file_delete_keeps_a_file (s : RoomState)
    (roomCode requester itemPath c e : String) (x : Bool)
    (hnd : (keysOf s.tree).Nodup)
    (hnode : lookupA s.tree itemPath = some (FileNode.file c e x)) :
    1 ≤ countFiles (deleteItemHandler s roomCode requester itemPath).1.tree := by
  by_cases hc : countFiles s.tree ≤ 1
  · have h1 : countFiles s.tree = 1 := by
      have := one_le_countFiles_of_file s.tree itemPath c e x hnode
      omega
    have herr : deleteItemHandler s roomCode requester itemPath
        = (s, [⟨Target.user requester, "file-error", ["Cannot delete the last file"]⟩]) := by
      simp [deleteItemHandler, hnode, isFile, h1]
    rw [herr]
    exact one_le_countFiles_of_file s.tree itemPath c e x hnode
  · rw [deleteItemHandler_file_tree s roomCode requester itemPath c e x hnode hc]
    rw [countFiles_delA_file s.tree itemPath c e x hnd hnode]
    omega

/-- C3 witness: deleting one of two files leaves a file node behind. -/
theorem C3_witness :
    1 ≤ countFiles (deleteItemHandler stC3w "R" "alice" "a.js").1.tree :=
  C3_amended_file_delete_keeps_a_file stC3w "R" "alice" "a.js" "y" "js" false
    (by decide) (by decide)

/-- C4 counterexample: the second, byte-identical code-change still
broadcasts a `code-update` event to the other room members, so the pair
of events produces two fan-outs, not exactly one. -/
theorem C4_cex_second_code_change_broadcasts_again :
    ((codeChangeHandler stC4 "R" "u1" (some "main.js") "x=1").2
      = [⟨Target.roomExcept "R" "u1", "code-update", ["x=1", "main.js", "u1"]⟩]) ∧
    ((codeChangeHandler (codeChangeHandler stC4 "R" "u1" (some "main.js") "x=1").1
        "R" "u1" (some "main.js") "x=1").2
      = [⟨Target.roomExcept "R" "u1", "code-update", ["x=1", "main.js", "u1"]⟩]) ∧
    ((codeChangeHandler (codeChangeHandler stC4 "R" "u1" (some "main.js") "x=1").1
        "R" "u1" (some "main.js") "x=1").2 ≠ []) := by
  decide

/-- C4 amended: applying the same code-change twice yields the same
on-disk bytes as applying it once and no second watcher-visible disk
mutation.  Within the 300 ms token window the second application returns
the first state unchanged (the write is elided by the still-active
editor token); and for any token set — in particular after the token has
expired — the second application leaves the tree, the disk contents and
the directory set unchanged, the write now elided by the byte-for-byte
content diff.  Each application still emits its own `code-update`
broadcast. -/
theorem C4_amended_code_change_idempotent_on_disk (s : RoomState)
    (roomCode sender fileName code c0 e w : String) (x : Bool)
    (hf : fileName ≠ "")
    (hn : lookupA s.tree fileName = some (FileNode.file c0 e x))
    (hw : s.workDir = some w)
    (ht : ("editor-" ++ roomCode ++ "-" ++ fileName) ∉ s.tokens) :
    (codeChangeHandler (codeChangeHandler s roomCode sender (some fileName) code).1
        roomCode sender (some fileName) code
      = ((codeChangeHandler s roomCode sender (some fileName) code).1,
         [⟨Target.roomExcept roomCode sender, "code-update", [code, fileName, sender]⟩])) ∧
    (∀ tks : List String,
      ((codeChangeHandler
          { (codeChangeHandler s roomCode sender (some fileName) code).1 with tokens := tks }
          roomCode sender (some fileName) code).1.tree
        = (codeChangeHandler s roomCode sender (some fileName) code).1.tree) ∧
      ((codeChangeHandler
          { (codeChangeHandler s roomCode sender (some fileName) code).1 with tokens := tks }
          roomCode sender (some fileName) code).1.diskFiles
        = (codeChangeHandler s roomCode sender (some fileName) code).1.diskFiles) ∧
      ((codeChangeHandler
          { (codeChangeHandler s roomCode sender (some fileName) code).1 with tokens := tks }
          roomCode sender (some fileName) code).1.diskDirs
        = (codeChangeHandler s roomCode sender (some fileName) code).1.diskDirs) ∧
      ((codeChangeHandler
          { (codeChangeHandler s roomCode sender (some fileName) code).1 with tokens := tks }
          roomCode sender (some fileName) code).2
        = [⟨Target.roomExcept roomCode sender, "code-update", [code, fileName, sender]⟩])) := by
  have h1 := codeChange_first s roomCode sender fileName code c0 e x w hf hn hw ht
  have hs1tree : (codeChangeHandler s roomCode sender (some fileName) code).1.tree
      = setA s.tree fileName (FileNode.file code e x) := by
    rw [h1]
  have hs1tok : (codeChangeHandler s roomCode sender (some fileName) code).1.tokens
      = ("editor-" ++ roomCode ++ "-" ++ fileName) :: s.tokens := by
    rw [h1]
  have hs1dd : (codeChangeHandler s roomCode sender (some fileName) code).1.diskDirs
      = mkdirRec s.diskDirs (dirnameOf fileName) := by
    rw [h1]
  have hlooktree : lookupA (codeChangeHandler s roomCode sender (some fileName) code).1.tree
      fileName = some (FileNode.file code e x) := by
    rw [hs1tree]
    exact lookupA_setA_self s.tree fileName _
  have hlookdisk : lookupA (codeChangeHandler s roomCode sender (some fileName) code).1.diskFiles
      fileName = some code := by
    rw [h1]
    exact lookup_disk_after_write s.diskFiles fileName code
  constructor
  · have hlook2 : lookupA (setA s.tree fileName (FileNode.file code e x)) fileName
        = some (FileNode.file code e x) := lookupA_setA_self s.tree fileName _
    have hset2 : setA (setA s.tree fileName (FileNode.file code e x)) fileName
        (FileNode.file code e x) = setA s.tree fileName (FileNode.file code e x) :=
      setA_eq_self_of_lookup _ _ _ hlook2
    rw [h1]
    simp [codeChangeHandler, hf, hlook2, hset2, writeFileToWorkingDir]
  · intro tks
    have hdirs : mkdirRec
        { (codeChangeHandler s roomCode sender (some fileName) code).1 with
            tokens := tks }.diskDirs (dirnameOf fileName)
        = { (codeChangeHandler s roomCode sender (some fileName) code).1 with
            tokens := tks }.diskDirs := by
      show mkdirRec (codeChangeHandler s roomCode sender (some fileName) code).1.diskDirs
          (dirnameOf fileName)
        = (codeChangeHandler s roomCode sender (some fileName) code).1.diskDirs
      rw [hs1dd]
      exact mkdirRec_idem s.diskDirs (dirnameOf fileName)
    have hnoop := codeChange_noop
      { (codeChangeHandler s roomCode sender (some fileName) code).1 with tokens := tks }
      roomCode sender fileName code e x hf hlooktree
    exact ⟨hnoop.1, hnoop.2.2.1 hlookdisk, hnoop.2.2.2 hlookdisk hdirs, hnoop.2.1⟩

/-- C4 witness: concrete instantiation of both idempotence conclusions
(the in-window second application and the expired-token variant). -/
theorem C4_witness :
    (codeChangeHandler (codeChangeHandler stC4 "R" "u1" (some "main.js") "x=1").1
        "R" "u1" (some "main.js") "x=1"
      = ((codeChangeHandler stC4 "R" "u1" (some "main.js") "x=1").1,
         [⟨Target.roomExcept "R" "u1", "code-update", ["x=1", "main.js", "u1"]⟩])) ∧
    ((codeChangeHandler
        { (codeChangeHandler stC4 "R" "u1" (some "main.js") "x=1").1 with tokens := [] }
        "R" "u1" (some "main.js") "x=1").1.diskFiles
      = (codeChangeHandler stC4 "R" "u1" (some "main.js") "x=1").1.diskFiles) :=
  ⟨(C4_amended_code_change_idempotent_on_disk stC4 "R" "u1" "main.js" "x=1" "old" "js" "wd"
      false (by decide) (by decide) (by decide) (by decide)).1,
   ((C4_amended_code_change_idempotent_on_disk stC4 "R" "u1" "main.js" "x=1" "old" "js" "wd"
      false (by decide) (by decide) (by decide) (by decide)).2 []).2.1⟩

/-- C8 counterexample: renaming the file "a" to "v1.2/b" stores the
extension "2/b" — the suffix after the final dot of the whole path —
although the leaf "b" has no dot, so the claimed leaf-derived (empty)
extension is wrong and dots in folder components do affect it. -/
theorem C8_cex_extension_from_whole_path :
    lookupA (renameItemHandler stC8 "R" "u1" "a" "v1.2/b").1.tree "v1.2/b"
      = some (FileNode.file "x" "2/b" false) ∧
    ("2/b" : String) ≠ "" := by
  decide

/-- C8 amended: after a successful renameItem of a file node, the stored
extension equals `newPath.split('.').pop() || 'txt'` computed on the
whole new path: the segment after the final dot of the entire path, the
whole path itself when it has no dot, and "txt" when that segment is
empty. -/
theorem C8_amended_extension_split_pop (s : RoomState)
    (roomCode requester oldPath newPath c e : String) (x : Bool)
    (hold : lookupA s.tree oldPath = some (FileNode.file c e x))
    (hnew : lookupA s.tree newPath = none) :
    lookupA (renameItemHandler s roomCode requester oldPath newPath).1.tree newPath
      = some (FileNode.file c (jsSplitPopExt newPath) x) := by
  have hne : newPath ≠ oldPath := by
    intro h
    rw [h, hold] at hnew
    cases hnew
  rw [renameItemHandler_file_tree s roomCode requester oldPath newPath c e x hold hnew]
  rw [lookupA_delA_ne _ _ _ hne, lookupA_setA_self]

/-- C8 witness: renaming "a" to "b.py" stores extension "py". -/
theorem C8_witness :
    lookupA (renameItemHandler stC8 "R" "u1" "a" "b.py").1.tree "b.py"
      = some (FileNode.file "x" (jsSplitPopExt "b.py") false) :=
  C8_amended_extension_split_pop stC8 "R" "u1" "a" "b.py" "x" "" false
    (by decide) (by decide)

/-- C9 counterexample: for the file "a" stored with extension "js",
renameItem(a, b) followed by renameItem(b, a) yields extension "a"
(re-derived from the whole path, which has no dot), so the node mapping
is not restored to its prior value. -/
theorem C9_cex_extension_not_restored :
    lookupA stC9.tree "a" = some (FileNode.file "c" "js" false) ∧
    lookupA (renameItemHandler (renameItemHandler stC9 "R" "u1" "a" "b").1
        "R" "u1" "b" "a").1.tree "a"
      = some (FileNode.file "c" "a" false) ∧
    FileNode.file "c" "a" false ≠ FileNode.file "c" "js" false := by
  decide

/-- C9 witness: a folder round trip "d" → "e" → "d" leaves the file
below the folder untouched. -/
theorem C9_witness :
    lookupA (renameItemHandler (renameItemHandler stC9w "R" "u1" "d" "e").1
        "R" "u1" "e" "d").1.tree "d/f.js"
      = some (FileNode.file "x" "js" false) :=
  (C9_amended_rename_round_trip stC9w "R" "u1" "d" "e" (FileNode.folder false)
    (by decide) (by decide) (by decide) (by decide) (by decide) (by decide) (by decide)
    "d/f.js").trans (by decide)
